import Mathlib

/-!
Verification of the musicbox durable-filesystem toolkit against its
natural-language specification.

The Go sources are shallowly embedded as executable Lean definitions:

* `MusicBox.stream` — the segmented random-access reader
  (`stream/multi_read_closer.go`, current generic version).  Underlying
  `io.ReaderAt` segments are modelled as byte-slice readers with the
  `bytes.Reader` read-at semantics; machine `int64` offsets become `Int`.
* `MusicBox.fsutil` — safe-write control flow (`safe_write.go`), the random
  temp-name open loop (`openRandom`), tree copy (`copy.go`) and tree
  equality (`equal.go`, the `EqualResult`-report version).  Filesystems are
  modelled as finite path-to-entry listings.
* `MusicBox.storage` — path/handle schema validation (`prepare.go`).

Fallible operations return `Option`/`Except`; all definitions are
executable (string algorithms are carried out on `List Char` so that closed
instances evaluate inside the kernel) so claims can be checked on concrete
inputs.
-/

namespace MusicBox

/-! ## Slash-separated path helpers

Models of Go `path.Clean` / `filepath.Clean`, `filepath.IsAbs` and
`filepath.IsLocal` for slash-separated (unix) paths, implemented over
`List Char`. -/

namespace gopath

/-- Split a character list at every `'/'`, mirroring `strings.Split(s, "/")`
(the result always has one part more than the number of separators). -/
def splitSlash : List Char → List (List Char)
  | [] => [[]]
  | c :: rest =>
    let r := splitSlash rest
    if c = '/' then [] :: r
    else (c :: r.headD []) :: r.tail

/-- Interleave `'/'` between parts, mirroring `strings.Join(parts, "/")`. -/
def joinSlash : List (List Char) → List Char
  | [] => []
  | [p] => p
  | p :: rest => p ++ '/' :: joinSlash rest

/-- One step of the `path.Clean` element processing: `""` and `"."` are
dropped, `".."` pops a previous non-`".."` element (or is kept when the path
is relative and there is nothing to pop, or dropped when rooted).  The
output list is kept reversed. -/
def cleanPush (rooted : Bool) (out : List (List Char)) (part : List Char) : List (List Char) :=
  if part = [] ∨ part = ['.'] then out
  else if part = ['.', '.'] then
    match out with
    | [] => if rooted then [] else [part]
    | top :: rest => if top = ['.', '.'] then part :: out else rest
  else part :: out

/-- Model of Go `path.Clean` for slash-separated paths. -/
def cleanL (p : List Char) : List Char :=
  match p with
  | [] => ['.']
  | _ =>
    let rooted : Bool := p.headD ' ' = '/'
    let comps := ((splitSlash p).foldl (cleanPush rooted) []).reverse
    let joined := joinSlash comps
    if rooted then '/' :: joined
    else if joined = [] then ['.'] else joined

/-- Model of Go `filepath.IsAbs` on unix. -/
def isAbsL (p : List Char) : Bool := p.headD ' ' = '/'

/-- Model of Go `filepath.IsLocal` on unix (`internal/filepathlite.isLocal`). -/
def isLocalL (p : List Char) : Bool :=
  if p = [] then false
  else if isAbsL p then false
  else
    let hasDots := (splitSlash p).any (fun part => part = ['.'] ∨ part = ['.', '.'])
    let q := if hasDots then cleanL p else p
    match q with
    | '.' :: '.' :: [] => false
    | '.' :: '.' :: '/' :: _ => false
    | _ => true

/-- `filepath.Clean` on `String`s (unix). -/
def clean (p : String) : String := ⟨cleanL p.data⟩

/-- `filepath.IsLocal` on `String`s (unix). -/
def isLocal (p : String) : Bool := isLocalL p.data

/-- Model of Go `path.Join` for two components
(`Join(a, b) = Clean(a + "/" + b)`; all-empty input gives `""`). -/
def join2 (a b : String) : String :=
  if a = "" ∧ b = "" then ""
  else if a = "" then clean b
  else if b = "" then clean a
  else clean ⟨a.data ++ '/' :: b.data⟩

example : clean "" = "." := by decide
example : clean "a/b/../c" = "a/c" := by decide
example : clean "./foo" = "foo" := by decide
example : clean "../x" = "../x" := by decide
example : clean "/../x" = "/x" := by decide
example : clean "a/.." = "." := by decide
example : clean "//a/" = "/a" := by decide
example : isLocal "foo" = true := by decide
example : isLocal "./foo" = true := by decide
example : isLocal "../x" = false := by decide
example : isLocal "/x" = false := by decide
example : isLocal "" = false := by decide
example : isLocal "x/../../y" = false := by decide
example : join2 "tmp" "pre123suf" = "tmp/pre123suf" := by decide

end gopath

/-! ## Segmented random-access reader (`stream/multi_read_closer.go`)

`SizedReaderAt` pairs an underlying reader with a declared size.  The
underlying `io.ReaderAt` is modelled as a byte slice (`data`) read with the
`bytes.Reader.ReadAt` contract: reads at `off` return
`min(len(p), len(data)-off)` bytes and report `io.EOF` exactly when fewer
than `len(p)` bytes are returned (negative offsets are an error).  `data`
need not agree with the declared `size`; the aggregate reader detects such
mis-declarations. -/

namespace stream

/-- Errors a read can surface.  `panicked` marks control paths where the Go
code would panic or loop forever (never reached from states the library
itself constructs); `errOther` models a non-`io.EOF` error from the
underlying reader. -/
inductive RErr where
  | eof
  | invalidSize
  | unexpectedEOF
  | errOther
  | panicked
deriving DecidableEq

/-- `stream.SizedReaderAt`: a declared-size reader.  `data` is the byte
content the underlying `io.ReaderAt` actually holds. -/
structure SizedReaderAt where
  data : List Nat
  size : Nat
deriving DecidableEq

/-- `stream.sizedReaderAt`: a `SizedReaderAt` together with its precomputed
starting (accumulated) offset. -/
structure sizedReaderAt extends SizedReaderAt where
  accum : Nat
deriving DecidableEq

instance : Inhabited sizedReaderAt := ⟨⟨⟨[], 0⟩, 0⟩⟩

/-- `bytes.Reader.ReadAt` semantics on a byte slice: the returned bytes and
the error (`some .eof` on a short read, `some .errOther` on a negative
offset). -/
def bytesReadAt (data : List Nat) (plen : Nat) (off : Int) : List Nat × Option RErr :=
  if off < 0 then ([], some .errOther)
  else if (data.length : Int) ≤ off then ([], some .eof)
  else
    let bs := (data.drop off.toNat).take plen
    (bs, if bs.length < plen then some .eof else none)

/-- The `NewMultiReadAtSeekCloser` translation loop: attach accumulated
starting offsets, beginning at `accum`. -/
def translateAux : List SizedReaderAt → Nat → List sizedReaderAt
  | [], _ => []
  | rr :: rest, accum => ⟨rr, accum⟩ :: translateAux rest (accum + rr.size)

/-- `stream.multiReadAtSeekCloser`: current segment index, current offset,
precomputed upper limit, and the translated readers. -/
structure multiReadAtSeekCloser where
  idx : Nat
  off : Int
  upperLimit : Int
  r : List sizedReaderAt
deriving DecidableEq

/-- `stream.NewMultiReadAtSeekCloser`. -/
def NewMultiReadAtSeekCloser (readers : List SizedReaderAt) : multiReadAtSeekCloser :=
  { idx := 0
    off := 0
    upperLimit := ((readers.map SizedReaderAt.size).sum : Nat)
    r := translateAux readers 0 }

/-- `stream.searchThreshold`. -/
def searchThreshold : Nat := 32

/-- Whether `off` falls inside segment `rr`
(`rr.accum <= off && off < rr.accum+rr.Size`). -/
def inSeg (off : Int) (rr : sizedReaderAt) : Prop :=
  (rr.accum : Int) ≤ off ∧ off < (rr.accum : Int) + rr.size

instance (off : Int) (rr : sizedReaderAt) : Decidable (inSeg off rr) :=
  inferInstanceAs (Decidable (_ ∧ _))

/-- The linear-scan branch of `stream.search`: index of the first segment
containing `off`, `none` for Go's `-1`. -/
def linearScan (off : Int) : List sizedReaderAt → Option Nat
  | [] => none
  | rr :: rest =>
    if inSeg off rr then some 0
    else (linearScan off rest).map (· + 1)

/-- The three-way comparison passed to `sort.Find` in `stream.binarySearch`. -/
def cmpSeg (off : Int) (rr : sizedReaderAt) : Int :=
  if off < (rr.accum : Int) then -1
  else if off < (rr.accum : Int) + rr.size then 0
  else 1

/-- The binary-search loop of Go `sort.Find`: narrow `[i, j)` until it is
empty, moving `i` past indices whose comparison is positive. -/
def sortFindLoop (cmp : Nat → Int) (i j : Nat) : Nat :=
  if h : i < j then
    if 0 < cmp ((i + j) / 2) then sortFindLoop cmp ((i + j) / 2 + 1) j
    else sortFindLoop cmp i ((i + j) / 2)
  else i
termination_by j - i
decreasing_by
  · omega
  · have : (i + j) / 2 < j := by omega
    omega

/-- Go `sort.Find`: the insertion point and whether the comparison is zero
there. -/
def sortFind (n : Nat) (cmp : Nat → Int) : Nat × Bool :=
  (sortFindLoop cmp 0 n,
    decide (sortFindLoop cmp 0 n < n) && decide (cmp (sortFindLoop cmp 0 n) = 0))

/-- `stream.binarySearch` (via `sort.Find`); `none` for Go's `-1`. -/
def binarySearch (off : Int) (readers : List sizedReaderAt) : Option Nat :=
  if (sortFind readers.length (fun k => cmpSeg off (readers.getD k default))).2
  then some (sortFind readers.length (fun k => cmpSeg off (readers.getD k default))).1
  else none

/-- `stream.search`: linear scan for at most `searchThreshold` readers,
binary search beyond. -/
def search (off : Int) (readers : List sizedReaderAt) : Option Nat :=
  if readers.length > searchThreshold then binarySearch off readers
  else linearScan off readers

/-- `multiReadAtSeekCloser.Read`: serve from the current segment, advancing
the stream state.  Returns the new state, the bytes read, and the error.
The `none` match arms model the panic Go would hit on a `-1` search result
(unreachable from states the constructor and `Seek`/`Read` produce). -/
def Read (s : multiReadAtSeekCloser) (plen : Nat) :
    multiReadAtSeekCloser × List Nat × Option RErr :=
  if s.upperLimit ≤ s.off then (s, [], some .eof)
  else
    match search s.off (s.r.drop s.idx) with
    | none => (s, [], some .panicked)
    | some i =>
      match (s.r.drop s.idx).get? i with
      | none => (s, [], some .panicked)
      | some rr =>
        let readerOff := s.off - (rr.accum : Int)
        let res := bytesReadAt rr.data plen readerOff
        let n := res.1.length
        let s' := if 0 < n ∨ res.2 = some .eof
          then { s with idx := s.idx + i, off := s.off + n } else s
        if res.2 ≠ none ∧ res.2 ≠ some .eof then (s', res.1, res.2)
        else
          let rem : Int := (rr.size : Int) - readerOff
          if rem < (n : Int) then (s', res.1, some .invalidSize)
          else if res.2 = some .eof ∧ n = 0 ∧ 0 < rem then (s', res.1, some .unexpectedEOF)
          else if res.2 = some .eof ∧ s'.idx < s.r.length - 1 then (s', res.1, none)
          else (s', res.1, res.2)

/-- The three `io.Seek*` whence values.  (The Go `default` branch returning
`ErrWhence` is unreachable for these.) -/
inductive Whence where
  | seekStart
  | seekCurrent
  | seekEnd
deriving DecidableEq

/-- `stream.ErrWhence` / `stream.ErrOffset`. -/
inductive SeekErr where
  | errWhence
  | errOffset
deriving DecidableEq

/-- `multiReadAtSeekCloser.Seek`.  On an offset at or past the upper limit
the index is parked at `len(r.r)`; a negative resolved offset is an error
and leaves the state untouched.  (Go stores `-1` when `search` misses; that
situation is unreachable since `0 ≤ off < upperLimit` always finds a
segment, and is modelled by the same parked index.) -/
def Seek (s : multiReadAtSeekCloser) (offset : Int) (whence : Whence) :
    multiReadAtSeekCloser × Except SeekErr Int :=
  let off := match whence with
    | .seekStart => offset
    | .seekCurrent => offset + s.off
    | .seekEnd => offset + s.upperLimit
  if off < 0 then (s, .error .errOffset)
  else
    let s1 := { s with off := off }
    if s1.upperLimit ≤ s1.off then ({ s1 with idx := s1.r.length }, .ok off)
    else
      match search off s1.r with
      | some i => ({ s1 with idx := i }, .ok off)
      | none => ({ s1 with idx := s1.r.length }, .ok off)

/-- `multiReadAtSeekCloser.readAt`: one stateless read from the single
segment containing `off`. -/
def readAt (s : multiReadAtSeekCloser) (plen : Nat) (off : Int) :
    List Nat × Option RErr :=
  if off < 0 ∨ s.upperLimit ≤ off then ([], some .eof)
  else
    match search off s.r with
    | none => ([], some .eof)
    | some i =>
      match s.r.get? i with
      | none => ([], some .eof)
      | some rr =>
        let readerOff := off - (rr.accum : Int)
        let res := bytesReadAt rr.data plen readerOff
        let n := res.1.length
        if res.2 ≠ none ∧ res.2 ≠ some .eof then (res.1, res.2)
        else
          let rem : Int := (rr.size : Int) - readerOff
          if rem < (n : Int) then (res.1, some .invalidSize)
          else if res.2 = some .eof ∧ n = 0 ∧ 0 < rem then (res.1, some .unexpectedEOF)
          else if res.2 = some .eof ∧ i < s.r.length - 1 then (res.1, none)
          else (res.1, res.2)

/-- The `for` loop inside `multiReadAtSeekCloser.ReadAt`, iterating `readAt`
until the request is filled or an error surfaces.  The loop makes progress
on every iteration it continues (`nn ≥ 1`), so `plen + 1` fuel always
suffices; exhausted fuel marks the spot where Go would loop forever. -/
def readAtLoop (s : multiReadAtSeekCloser) :
    Nat → Nat → Int → Bool → List Nat × Option RErr
  | 0, _, _, _ => ([], some .panicked)
  | fuel + 1, plen, off, maxExceeded =>
    let res := readAt s plen off
    let nn := res.1.length
    if nn = plen ∨ res.2 ≠ none then
      (res.1, if maxExceeded ∧ res.2 = none then some .eof else res.2)
    else
      let rest := readAtLoop s fuel (plen - nn) (off + nn) maxExceeded
      (res.1 ++ rest.1, rest.2)

/-- `multiReadAtSeekCloser.ReadAt`: bounds check, trim the request to the
upper limit (remembering to report `io.EOF` for the trimmed part), then
loop over segments. -/
def ReadAt (s : multiReadAtSeekCloser) (plen : Nat) (off : Int) :
    List Nat × Option RErr :=
  if off < 0 ∨ s.upperLimit ≤ off then ([], some .eof)
  else
    let maxAvail := s.upperLimit - off
    if maxAvail < (plen : Int) then readAtLoop s (maxAvail.toNat + 1) maxAvail.toNat off true
    else readAtLoop s (plen + 1) plen off false

/-- Driving loop of `io.ReadAll` over `Read` with a fixed buffer size:
repeatedly `Read` until an error (in particular `io.EOF`) surfaces,
concatenating the bytes. -/
def readAll (plen : Nat) : Nat → multiReadAtSeekCloser → List Nat × Option RErr
  | 0, _ => ([], some .panicked)
  | fuel + 1, s =>
    let step := Read s plen
    match step.2.2 with
    | some e => (step.2.1, some e)
    | none =>
      let rest := readAll plen fuel step.1
      (step.2.1 ++ rest.1, rest.2)

/-- A partition of a byte sequence into declared-size segments whose readers
hold exactly their declared bytes: segment `i` is `segs[i]` with declared
size `len segs[i]`; the source sequence is `segs.join`. -/
def exactSegments (segs : List (List Nat)) : List SizedReaderAt :=
  segs.map (fun c => ⟨c, c.length⟩)

example :
    Read (NewMultiReadAtSeekCloser (exactSegments [[1], [2, 3]])) 2 =
      ({ idx := 0, off := 1, upperLimit := 3, r := ⟨⟨[1], 1⟩, 0⟩ :: [⟨⟨[2, 3], 2⟩, 1⟩] },
        [1], none) := by decide

example :
    ReadAt (NewMultiReadAtSeekCloser (exactSegments [[1], [2, 3]])) 2 1 =
      ([2, 3], none) := by decide

example :
    ReadAt (NewMultiReadAtSeekCloser (exactSegments [[1], [2, 3]])) 5 1 =
      ([2, 3], some .eof) := by decide

example :
    ReadAt (NewMultiReadAtSeekCloser (exactSegments [[1], [2, 3]])) 1 3 =
      ([], some .eof) := by decide

example :
    readAll 2 4 (NewMultiReadAtSeekCloser (exactSegments [[1], [2, 3]])) =
      ([1, 2, 3], some .eof) := by decide

/-! ### Segment-lookup lemmas -/

/-- Accumulated offsets are chained starting at `a`: each segment starts
where its predecessor ends. -/
def Chained : Nat → List sizedReaderAt → Prop
  | _, [] => True
  | a, rr :: rest => rr.accum = a ∧ Chained (a + rr.size) rest

theorem chained_translateAux (readers : List SizedReaderAt) (a : Nat) :
    Chained a (translateAux readers a) := by
  induction readers generalizing a with
  | nil => trivial
  | cons rr rest ih => exact ⟨rfl, ih _⟩

theorem chained_accum_succ {a : Nat} {rs : List sizedReaderAt} (h : Chained a rs)
    {k : Nat} (hk : k + 1 < rs.length) :
    (rs.getD (k + 1) default).accum
      = (rs.getD k default).accum + (rs.getD k default).size := by
  induction rs generalizing a k with
  | nil => simp at hk
  | cons rr rest ih =>
    obtain ⟨h1, h2⟩ := h
    cases k with
    | zero =>
      cases rest with
      | nil => simp at hk
      | cons rr2 rest2 =>
        obtain ⟨h3, _⟩ := h2
        simp only [List.getD_cons_succ, List.getD_cons_zero]
        omega
    | succ k' =>
      simp only [List.getD_cons_succ]
      exact ih h2 (by simpa using hk)

theorem cmpSeg_antitone_adj {a : Nat} {rs : List sizedReaderAt} (h : Chained a rs)
    (off : Int) {k : Nat} (hk : k + 1 < rs.length) :
    cmpSeg off (rs.getD (k + 1) default) ≤ cmpSeg off (rs.getD k default) := by
  have hacc := chained_accum_succ h hk
  unfold cmpSeg
  split_ifs <;> omega

theorem cmpSeg_antitone {a : Nat} {rs : List sizedReaderAt} (h : Chained a rs)
    (off : Int) {k l : Nat} (hkl : k ≤ l) (hl : l < rs.length) :
    cmpSeg off (rs.getD l default) ≤ cmpSeg off (rs.getD k default) := by
  induction l with
  | zero =>
    have : k = 0 := Nat.le_zero.mp hkl
    simp [this]
  | succ l' ih =>
    rcases Nat.lt_or_ge k (l' + 1) with hlt | hge
    · have h1 := cmpSeg_antitone_adj h off hl
      have h2 := ih (by omega) (by omega)
      omega
    · have : k = l' + 1 := by omega
      simp [this]

theorem sortFindLoop_spec (cmp : Nat → Int) (n : Nat)
    (mono : ∀ k l : Nat, k ≤ l → l < n → cmp l ≤ cmp k)
    (i j : Nat) (hij : i ≤ j) (hjn : j ≤ n)
    (hlo : ∀ k, k < i → 0 < cmp k)
    (hhi : ∀ k, j ≤ k → k < n → cmp k ≤ 0) :
    i ≤ sortFindLoop cmp i j ∧ sortFindLoop cmp i j ≤ j ∧
      (∀ k, k < sortFindLoop cmp i j → 0 < cmp k) ∧
      (∀ k, sortFindLoop cmp i j ≤ k → k < n → cmp k ≤ 0) := by
  rw [sortFindLoop]
  split
  · next hij' =>
    split
    · next hcmp =>
      have hlo' : ∀ k, k < (i + j) / 2 + 1 → 0 < cmp k := by
        intro k hk
        have hkm : k ≤ (i + j) / 2 := by omega
        have := mono k ((i + j) / 2) hkm (by omega)
        omega
      have ih := sortFindLoop_spec cmp n mono ((i + j) / 2 + 1) j (by omega) hjn hlo' hhi
      exact ⟨by omega, ih.2.1, ih.2.2.1, ih.2.2.2⟩
    · next hcmp =>
      have hhi' : ∀ k, (i + j) / 2 ≤ k → k < n → cmp k ≤ 0 := by
        intro k hk hkn
        have := mono ((i + j) / 2) k hk hkn
        omega
      have ih := sortFindLoop_spec cmp n mono i ((i + j) / 2) (by omega) (by omega) hlo hhi'
      exact ⟨ih.1, by omega, ih.2.2.1, ih.2.2.2⟩
  · next hij' =>
    have : i = j := by omega
    subst this
    exact ⟨le_refl _, le_refl _, hlo, fun k hk hkn => hhi k hk hkn⟩
termination_by j - i
decreasing_by
  · omega
  · have : (i + j) / 2 < j := by omega
    omega

theorem inSeg_iff_cmpSeg_eq_zero (off : Int) (rr : sizedReaderAt) :
    inSeg off rr ↔ cmpSeg off rr = 0 := by
  unfold inSeg cmpSeg
  split_ifs <;> simp <;> omega

theorem not_inSeg_of_cmpSeg_ne_zero {off : Int} {rr : sizedReaderAt}
    (h : cmpSeg off rr ≠ 0) : ¬ inSeg off rr := by
  rw [inSeg_iff_cmpSeg_eq_zero]
  exact h

theorem linearScan_eq_some_of (off : Int) (rs : List sizedReaderAt) (m : Nat)
    (hm : m < rs.length) (hin : inSeg off (rs.getD m default))
    (hnot : ∀ k, k < m → ¬ inSeg off (rs.getD k default)) :
    linearScan off rs = some m := by
  induction rs generalizing m with
  | nil => simp at hm
  | cons rr rest ih =>
    cases m with
    | zero =>
      simp only [List.getD_cons_zero] at hin
      simp [linearScan, hin]
    | succ m' =>
      have h0 : ¬ inSeg off rr := by
        have h00 := hnot 0 (Nat.succ_pos _)
        simpa using h00
      have hm' : m' < rest.length := by
        simp only [List.length_cons] at hm
        omega
      have hin' : inSeg off (rest.getD m' default) := by
        simpa using hin
      have hnot' : ∀ k, k < m' → ¬ inSeg off (rest.getD k default) := by
        intro k hk
        have hx := hnot (k + 1) (by omega)
        simpa using hx
      have hrest := ih m' hm' hin' hnot'
      simp [linearScan, h0, hrest]

theorem linearScan_eq_none_of (off : Int) (rs : List sizedReaderAt)
    (hnot : ∀ k, k < rs.length → ¬ inSeg off (rs.getD k default)) :
    linearScan off rs = none := by
  induction rs with
  | nil => rfl
  | cons rr rest ih =>
    have h0 : ¬ inSeg off rr := by
      have h00 := hnot 0 (Nat.succ_pos _)
      simpa using h00
    have hrest := ih (by
      intro k hk
      have hx := hnot (k + 1) (by simp only [List.length_cons]; omega)
      simpa using hx)
    simp [linearScan, h0, hrest]

/-- On any chained segment list the linear scan and the `sort.Find`-based
binary search agree. -/
theorem linearScan_eq_binarySearch_chained {a : Nat} {rs : List sizedReaderAt}
    (h : Chained a rs) (off : Int) :
    linearScan off rs = binarySearch off rs := by
  have mono : ∀ k l : Nat, k ≤ l → l < rs.length →
      cmpSeg off (rs.getD l default) ≤ cmpSeg off (rs.getD k default) :=
    fun k l hkl hl => cmpSeg_antitone h off hkl hl
  obtain ⟨-, hrn, hlo, hhi⟩ :=
    sortFindLoop_spec (fun k => cmpSeg off (rs.getD k default)) rs.length
      mono 0 rs.length (Nat.zero_le _) (le_refl _)
      (fun k hk => absurd hk (by omega)) (fun k hk hkn => absurd hkn (by omega))
  simp only [binarySearch, sortFind]
  set r := sortFindLoop (fun k => cmpSeg off (rs.getD k default)) 0 rs.length with hrdef
  have hlo' : ∀ k, k < r → 0 < cmpSeg off (rs.getD k default) := fun k hk => hlo k hk
  have hhi' : ∀ k, r ≤ k → k < rs.length → cmpSeg off (rs.getD k default) ≤ 0 :=
    fun k hk hkn => hhi k hk hkn
  by_cases hf1 : r < rs.length
  · by_cases hf2 : cmpSeg off (rs.getD r default) = 0
    · rw [decide_eq_true hf1, decide_eq_true hf2]
      simp only [Bool.and_self, if_true]
      apply linearScan_eq_some_of off rs _ hf1 ((inSeg_iff_cmpSeg_eq_zero _ _).mpr hf2)
      intro k hk
      exact not_inSeg_of_cmpSeg_ne_zero (by have hc := hlo' k hk; omega)
    · rw [decide_eq_true hf1, decide_eq_false hf2]
      simp only [Bool.true_and, if_false, Bool.false_eq_true]
      apply linearScan_eq_none_of
      intro k hk
      apply not_inSeg_of_cmpSeg_ne_zero
      rcases Nat.lt_or_ge k r with hlt | hge
      · have hc := hlo' k hlt
        omega
      · have hle := hhi' k hge hk
        have hr0 := hhi' r (le_refl _) hf1
        have hm := mono r k hge hk
        omega
  · rw [decide_eq_false hf1]
    simp only [Bool.false_and, if_false, Bool.false_eq_true]
    apply linearScan_eq_none_of
    intro k hk
    exact not_inSeg_of_cmpSeg_ne_zero (by have hc := hlo' k (by omega); omega)

theorem search_eq_linearScan_chained {a : Nat} {rs : List sizedReaderAt}
    (h : Chained a rs) (off : Int) : search off rs = linearScan off rs := by
  unfold search
  split
  · exact (linearScan_eq_binarySearch_chained h off).symm
  · rfl

/-! ### Exact segment sessions

Facts about a reader built with `exactSegments`, i.e. when every underlying
reader holds exactly its declared bytes. -/

/-- Total declared size. -/
def totalSize (readers : List SizedReaderAt) : Nat :=
  (readers.map SizedReaderAt.size).sum

theorem totalSize_exactSegments (segs : List (List Nat)) :
    totalSize (exactSegments segs) = segs.flatten.length := by
  induction segs with
  | nil => rfl
  | cons c rest ih =>
    simp only [totalSize, exactSegments, List.map_cons, List.sum_cons,
      List.flatten_cons, List.length_append] at *
    omega

theorem translateAux_length (readers : List SizedReaderAt) (a : Nat) :
    (translateAux readers a).length = readers.length := by
  induction readers generalizing a with
  | nil => rfl
  | cons rr rest ih => simp [translateAux, ih]

theorem translateAux_drop (readers : List SizedReaderAt) (a k : Nat) :
    (translateAux readers a).drop k
      = translateAux (readers.drop k) (a + totalSize (readers.take k)) := by
  induction readers generalizing a k with
  | nil => simp [translateAux, totalSize]
  | cons rr rest ih =>
    cases k with
    | zero => simp [totalSize]
    | succ k' =>
      simp only [translateAux, List.drop_succ_cons, List.take_succ_cons]
      rw [ih]
      congr 1
      simp only [totalSize, List.map_cons, List.sum_cons]
      omega

theorem exactSegments_drop (segs : List (List Nat)) (k : Nat) :
    exactSegments (segs.drop k) = (exactSegments segs).drop k := by
  simp [exactSegments, List.map_drop]

theorem exactSegments_take (segs : List (List Nat)) (k : Nat) :
    exactSegments (segs.take k) = (exactSegments segs).take k := by
  simp [exactSegments, List.map_take]

theorem flatten_take_add_drop (segs : List (List Nat)) (k : Nat) :
    (segs.take k).flatten.length + (segs.drop k).flatten.length = segs.flatten.length := by
  conv_rhs => rw [← List.take_append_drop k segs]
  rw [List.flatten_append, List.length_append]

/-- Locating a logical offset `a + k` in an exact segment list translated
with base accumulated offset `a`: the linear scan finds a segment index `i`
holding bytes `c` that start `pre` bytes into the local byte sequence, and
the local byte sequence decomposes around the segment. -/
theorem exact_lookup (segs : List (List Nat)) (a k : Nat)
    (hk : k < segs.flatten.length) :
    ∃ i c pre,
      linearScan ((a : Int) + k) (translateAux (exactSegments segs) a) = some i ∧
      (translateAux (exactSegments segs) a).get? i = some ⟨⟨c, c.length⟩, a + pre⟩ ∧
      i < segs.length ∧
      pre = (segs.take i).flatten.length ∧
      pre ≤ k ∧ k - pre < c.length ∧
      segs.flatten.drop k = c.drop (k - pre) ++ (segs.drop (i + 1)).flatten ∧
      pre + c.length + (segs.drop (i + 1)).flatten.length = segs.flatten.length ∧
      segs.get? i = some c := by
  induction segs generalizing a k with
  | nil => simp at hk
  | cons c0 rest ih =>
    by_cases h0 : k < c0.length
    · refine ⟨0, c0, 0, ?_, rfl, by simp, rfl, Nat.zero_le _, by simpa using h0, ?_, ?_, rfl⟩
      · have hin : inSeg ((a : Int) + k) ⟨⟨c0, c0.length⟩, a⟩ := by
          constructor
          · simp only
            omega
          · simp only
            push_cast
            omega
        simp [exactSegments, translateAux, linearScan, hin]
      · rw [List.flatten_cons, List.drop_append_of_le_length (by omega), List.drop_one]
        simp
      · simp [List.flatten_cons, List.length_append]
    · push_neg at h0
      have hk' : k - c0.length < rest.flatten.length := by
        rw [List.flatten_cons] at hk
        simp only [List.length_append] at hk
        omega
      obtain ⟨i, c, pre, h1, h2, h3, h4, h5, h6, h7, h8, h9⟩ :=
        ih (a + c0.length) (k - c0.length) hk'
      have hoffeq : ((a + c0.length : Nat) : Int) + ((k - c0.length : Nat) : Int) = (a : Int) + k := by
        push_cast
        omega
      refine ⟨i + 1, c, c0.length + pre, ?_, ?_, by simpa using h3, ?_, by omega, by omega, ?_, ?_,
        by simpa using h9⟩
      · have hnot : ¬ inSeg ((a : Int) + k) ⟨⟨c0, c0.length⟩, a⟩ := by
          intro hin
          obtain ⟨-, hb⟩ := hin
          simp only at hb
          omega
        rw [show translateAux (exactSegments (c0 :: rest)) a
            = ⟨⟨c0, c0.length⟩, a⟩ :: translateAux (exactSegments rest) (a + c0.length) from rfl]
        simp only [linearScan, hnot, if_false]
        rw [hoffeq] at h1
        rw [h1]
        rfl
      · rw [show translateAux (exactSegments (c0 :: rest)) a
            = ⟨⟨c0, c0.length⟩, a⟩ :: translateAux (exactSegments rest) (a + c0.length) from rfl]
        simp only [List.get?_cons_succ]
        rw [h2]
        congr 2
        omega
      · rw [show (c0 :: rest).take (i + 1) = c0 :: rest.take i from rfl, List.flatten_cons]
        simp only [List.length_append]
        omega
      · rw [List.flatten_cons,
          show k = c0.length + (k - c0.length) from by omega, List.drop_append]
        rw [show (c0 :: rest).drop (i + 1 + 1) = rest.drop (i + 1) from rfl]
        rw [h7]
        congr 2
        omega
      · rw [List.flatten_cons, List.length_append,
          show (c0 :: rest).drop (i + 1 + 1) = rest.drop (i + 1) from rfl]
        omega

/-- The session invariant of an exact-segments reader: the state carries the
translated exact segments, the correct upper limit, and a current index
whose segments all end at or before the current offset. -/
def ExactState (segs : List (List Nat)) (s : multiReadAtSeekCloser) : Prop :=
  s.r = translateAux (exactSegments segs) 0 ∧
  s.upperLimit = (segs.flatten.length : Int) ∧
  s.idx ≤ segs.length ∧
  0 ≤ s.off ∧
  ((segs.take s.idx).flatten.length : Int) ≤ s.off

theorem exactState_new (segs : List (List Nat)) :
    ExactState segs (NewMultiReadAtSeekCloser (exactSegments segs)) := by
  refine ⟨rfl, ?_, Nat.zero_le _, le_refl _, ?_⟩
  · show ((totalSize (exactSegments segs) : Nat) : Int) = _
    rw [totalSize_exactSegments]
  · show ((segs.take (NewMultiReadAtSeekCloser (exactSegments segs)).idx).flatten.length : Int)
      ≤ (NewMultiReadAtSeekCloser (exactSegments segs)).off
    show ((segs.take 0).flatten.length : Int) ≤ (0 : Int)
    simp

theorem multi_mk_idx (x : Nat) (o u : Int) (rl : List sizedReaderAt) :
    ({ idx := x, off := o, upperLimit := u, r := rl } : multiReadAtSeekCloser).idx = x := rfl

theorem exactState_r_length {segs : List (List Nat)} {s : multiReadAtSeekCloser}
    (hs : ExactState segs s) : s.r.length = segs.length := by
  rw [hs.1, translateAux_length]
  simp [exactSegments]

/-- Master evaluation lemma for `Read` on an exact-segments session whose
offset is strictly below the upper limit: the call serves
`min plen rem` bytes of the logical byte sequence at the current offset,
where `rem` is what remains of the segment containing the offset, and
reports `io.EOF` exactly when the request was truncated at the end of the
final segment. -/
theorem Read_eq {segs : List (List Nat)} {s : multiReadAtSeekCloser}
    (hs : ExactState segs s) (plen : Nat) (hlt : s.off < (segs.flatten.length : Int)) :
    ∃ i rem,
      1 ≤ rem ∧
      s.off.toNat + rem ≤ segs.flatten.length ∧
      (s.off.toNat + rem < segs.flatten.length → s.idx + i < segs.length - 1) ∧
      s.idx + i < segs.length ∧
      (segs.take (s.idx + i)).flatten.length ≤ s.off.toNat ∧
      s.off.toNat + rem = (segs.take (s.idx + i + 1)).flatten.length ∧
      Read s plen =
        (if 0 < min plen rem ∨ rem < plen
          then { s with idx := s.idx + i, off := s.off + (min plen rem : Nat) }
          else s,
          (segs.flatten.drop s.off.toNat).take (min plen rem),
          if rem < plen ∧ segs.length - 1 ≤ s.idx + i then some .eof else none) := by
  obtain ⟨hr, hu, hidx, hoff0, hbase⟩ := hs
  have hofk : s.off = (s.off.toNat : Int) := (Int.toNat_of_nonneg hoff0).symm
  have hkl : s.off.toNat < segs.flatten.length := by omega
  have hbaseN : (segs.take s.idx).flatten.length ≤ s.off.toNat := by omega
  have hsplit := flatten_take_add_drop segs s.idx
  have hdrop : s.r.drop s.idx
      = translateAux (exactSegments (segs.drop s.idx)) ((segs.take s.idx).flatten.length) := by
    rw [hr, translateAux_drop, exactSegments_drop]
    congr 1
    rw [← exactSegments_take, totalSize_exactSegments]
    omega
  have hk' : s.off.toNat - (segs.take s.idx).flatten.length
      < (segs.drop s.idx).flatten.length := by omega
  obtain ⟨i, c, pre, h1, h2, h3, h4, h5, h6, h7, h8, h9⟩ :=
    exact_lookup (segs.drop s.idx) ((segs.take s.idx).flatten.length)
      (s.off.toNat - (segs.take s.idx).flatten.length) hk'
  have hoffeq : (((segs.take s.idx).flatten.length : Nat) : Int)
      + ((s.off.toNat - (segs.take s.idx).flatten.length : Nat) : Int) = s.off := by
    push_cast
    omega
  rw [hoffeq] at h1
  have hflat : segs.flatten
      = (segs.take s.idx).flatten ++ (segs.drop s.idx).flatten := by
    conv_lhs => rw [← List.take_append_drop s.idx segs]
    rw [List.flatten_append]
  have hgdrop : segs.flatten.drop s.off.toNat
      = c.drop (s.off.toNat - (segs.take s.idx).flatten.length - pre)
        ++ (segs.drop (s.idx + (i + 1))).flatten := by
    conv_lhs =>
      rw [hflat,
        show s.off.toNat = (segs.take s.idx).flatten.length
          + (s.off.toNat - (segs.take s.idx).flatten.length) from by omega,
        List.drop_append, h7]
    rw [List.drop_drop]
  have hdl : (segs.drop (s.idx + (i + 1))).flatten.length
      = (segs.drop s.idx).flatten.length - pre - c.length := by
    rw [← List.drop_drop]
    omega
  refine ⟨i, c.length - (s.off.toNat - (segs.take s.idx).flatten.length - pre),
    by omega, by omega, ?_, ?_, ?_, ?_, ?_⟩
  · intro hmore
    have hne : 0 < (segs.drop (s.idx + (i + 1))).flatten.length := by omega
    have hlen : segs.drop (s.idx + (i + 1)) ≠ [] := by
      intro hz
      rw [hz] at hne
      simp at hne
    have hlen2 : 0 < (segs.drop (s.idx + (i + 1))).length :=
      List.length_pos.mpr hlen
    rw [List.length_drop] at hlen2
    omega
  · rw [List.length_drop] at h3
    omega
  · rw [List.take_add, List.flatten_append, List.length_append, ← h4]
    omega
  · have htk : (segs.drop s.idx).take (i + 1) = (segs.drop s.idx).take i ++ [c] := by
      rw [List.take_succ,
        show (segs.drop s.idx)[i]? = some c from by
          rw [← List.get?_eq_getElem?]; exact h9]
      rfl
    rw [show s.idx + i + 1 = s.idx + (i + 1) from rfl, List.take_add, htk]
    simp only [List.flatten_append, List.length_append, List.flatten_cons,
      List.flatten_nil, List.append_nil]
    omega
  · -- evaluate `Read`
    have hrlen : s.r.length = segs.length := by
      rw [hr, translateAux_length]
      simp [exactSegments]
    have hsearch : search s.off (s.r.drop s.idx) = some i := by
      rw [hdrop, search_eq_linearScan_chained (chained_translateAux _ _)]
      exact h1
    have hget : (s.r.drop s.idx).get? i
        = some ⟨⟨c, c.length⟩, (segs.take s.idx).flatten.length + pre⟩ := by
      rw [hdrop]
      exact h2
    have hjeq : s.off - (((segs.take s.idx).flatten.length + pre : Nat) : Int)
        = ((s.off.toNat - (segs.take s.idx).flatten.length - pre : Nat) : Int) := by
      push_cast
      omega
    have hjc : s.off.toNat - (segs.take s.idx).flatten.length - pre < c.length := h6
    have hbytes : bytesReadAt c plen (s.off - (((segs.take s.idx).flatten.length + pre : Nat) : Int))
        = ((c.drop (s.off.toNat - (segs.take s.idx).flatten.length - pre)).take plen,
            if min plen (c.length - (s.off.toNat - (segs.take s.idx).flatten.length - pre)) < plen
            then some .eof else none) := by
      rw [hjeq]
      unfold bytesReadAt
      rw [if_neg (by omega), if_neg (by push_cast; omega)]
      simp only [Int.toNat_natCast, List.length_take, List.length_drop]
    have hnotend : ¬ s.upperLimit ≤ s.off := by
      rw [hu]
      omega
    have hbnd : (segs.flatten.drop s.off.toNat).take
        (min plen (c.length - (s.off.toNat - (segs.take s.idx).flatten.length - pre)))
        = (c.drop (s.off.toNat - (segs.take s.idx).flatten.length - pre)).take
          (min plen (c.length - (s.off.toNat - (segs.take s.idx).flatten.length - pre))) := by
      rw [hgdrop, List.take_append_of_le_length]
      simp only [List.length_drop]
      omega
    simp only [Read, hsearch, hget, hbytes, if_neg hnotend, List.length_take,
      List.length_drop]
    rw [hbnd]
    by_cases hrem : c.length - (s.off.toNat - (segs.take s.idx).flatten.length - pre) < plen
    · have hmin : min plen (c.length - (s.off.toNat - (segs.take s.idx).flatten.length - pre))
          = c.length - (s.off.toNat - (segs.take s.idx).flatten.length - pre) := by omega
      rw [hmin, if_pos hrem]
      have hupd : (0 < c.length - (s.off.toNat - (segs.take s.idx).flatten.length - pre)
          ∨ (some RErr.eof : Option RErr) = some .eof) := Or.inr rfl
      rw [if_pos hupd, if_pos (Or.inr hrem)]
      have hc1 : ¬ ((some RErr.eof : Option RErr) ≠ none ∧ (some RErr.eof : Option RErr) ≠ some .eof) := by
        simp
      rw [if_neg hc1]
      have hc2 : ¬ ((c.length : Int) - (s.off - ((segs.take s.idx).flatten.length + pre : Nat))
          < (c.length - (s.off.toNat - (segs.take s.idx).flatten.length - pre) : Nat)) := by
        push_cast
        omega
      rw [if_neg hc2]
      have hc3 : ¬ ((some RErr.eof : Option RErr) = some .eof
          ∧ c.length - (s.off.toNat - (segs.take s.idx).flatten.length - pre) = 0
          ∧ 0 < (c.length : Int) - (s.off - ((segs.take s.idx).flatten.length + pre : Nat))) := by
        rintro ⟨-, hz, -⟩
        omega
      rw [if_neg hc3, multi_mk_idx, hrlen]
      have htk1 : List.take plen
          (List.drop (s.off.toNat - (List.take s.idx segs).flatten.length - pre) c)
          = List.drop (s.off.toNat - (List.take s.idx segs).flatten.length - pre) c :=
        List.take_of_length_le (by rw [List.length_drop]; omega)
      have htk2 : List.take
          (c.length - (s.off.toNat - (List.take s.idx segs).flatten.length - pre))
          (List.drop (s.off.toNat - (List.take s.idx segs).flatten.length - pre) c)
          = List.drop (s.off.toNat - (List.take s.idx segs).flatten.length - pre) c :=
        List.take_of_length_le (by rw [List.length_drop])
      rw [htk1, htk2]
      by_cases hlast : s.idx + i < segs.length - 1
      · rw [if_pos ⟨rfl, hlast⟩, if_neg (by omega)]
      · rw [if_neg (by rintro ⟨-, hx⟩; omega), if_pos ⟨hrem, by omega⟩]
    · have hmin : min plen (c.length - (s.off.toNat - (segs.take s.idx).flatten.length - pre))
          = plen := by omega
      rw [hmin, if_neg (lt_irrefl plen)]
      rw [if_neg (show ¬ ((none : Option RErr) ≠ none ∧ (none : Option RErr) ≠ some .eof)
        from by simp)]
      rw [if_neg (show ¬ ((c.length : Int)
          - (s.off - ((segs.take s.idx).flatten.length + pre : Nat)) < (plen : Nat))
        from by push_cast; omega)]
      rw [if_neg (show ¬ ((none : Option RErr) = some .eof ∧ plen = 0
          ∧ 0 < (c.length : Int) - (s.off - ((segs.take s.idx).flatten.length + pre : Nat)))
        from fun hAnd => Option.noConfusion hAnd.1)]
      by_cases hp0 : 0 < plen
      · rw [if_pos (show 0 < plen ∨ (none : Option RErr) = some .eof from Or.inl hp0)]
        rw [multi_mk_idx, hrlen]
        rw [if_neg (show ¬ ((none : Option RErr) = some .eof ∧ s.idx + i < segs.length - 1)
          from fun hAnd => Option.noConfusion hAnd.1)]
        rw [if_neg (show
          ¬ (c.length - (s.off.toNat - (segs.take s.idx).flatten.length - pre) < plen
            ∧ segs.length - 1 ≤ s.idx + i) from by omega)]
        rw [if_pos (show 0 < plen
          ∨ c.length - (s.off.toNat - (segs.take s.idx).flatten.length - pre) < plen
          from Or.inl hp0)]
      · rw [if_neg (show ¬ (0 < plen ∨ (none : Option RErr) = some .eof) from by
          rintro (h' | h')
          · omega
          · exact Option.noConfusion h')]
        rw [if_neg (show ¬ ((none : Option RErr) = some .eof ∧ s.idx < s.r.length - 1)
          from fun hAnd => Option.noConfusion hAnd.1)]
        rw [if_neg (show
          ¬ (c.length - (s.off.toNat - (segs.take s.idx).flatten.length - pre) < plen
            ∧ segs.length - 1 ≤ s.idx + i) from by omega)]
        rw [if_neg (show ¬ (0 < plen
          ∨ c.length - (s.off.toNat - (segs.take s.idx).flatten.length - pre) < plen)
          from by omega)]

/-- Reading an exact-segments session to the end with any positive buffer
size yields exactly the remaining bytes followed by `io.EOF`. -/
theorem readAll_exact {segs : List (List Nat)} (plen : Nat) (hp : 1 ≤ plen) :
    ∀ (fuel : Nat) (s : multiReadAtSeekCloser), ExactState segs s →
      segs.flatten.length - s.off.toNat < fuel →
      readAll plen fuel s = (segs.flatten.drop s.off.toNat, some .eof) := by
  intro fuel
  induction fuel with
  | zero =>
    intro s hs hfuel
    omega
  | succ fuel ih =>
    intro s hs hfuel
    by_cases hend : (segs.flatten.length : Int) ≤ s.off
    · have hread : Read s plen = (s, [], some .eof) := by
        unfold Read
        rw [if_pos (by rw [hs.2.1]; exact hend)]
      have hoff0 : (0 : Int) ≤ s.off := hs.2.2.2.1
      have hdropnil : segs.flatten.drop s.off.toNat = [] :=
        List.drop_eq_nil_of_le (by omega)
      simp only [readAll, hread, hdropnil]
    · push_neg at hend
      obtain ⟨i, rem, h1rem, h2sum, h3more, h4lt, h5base, hbound, hread⟩ := Read_eq hs plen hend
      have hoff0 : (0 : Int) ≤ s.off := hs.2.2.2.1
      have hn1 : 0 < min plen rem := by omega
      by_cases hC : rem < plen ∧ segs.length - 1 ≤ s.idx + i
      · have hkrem : s.off.toNat + rem = segs.flatten.length := by
          rcases Nat.lt_or_ge (s.off.toNat + rem) segs.flatten.length with hlt2 | hge
          · exact absurd (h3more hlt2) (by omega)
          · omega
        have hmin2 : min plen rem = rem := by omega
        rw [if_pos hC, hmin2] at hread
        simp only [readAll, hread]
        rw [List.take_of_length_le (by rw [List.length_drop]; omega)]
      · rw [if_neg hC, if_pos (Or.inl hn1)] at hread
        have hs' : ExactState segs
            { s with idx := s.idx + i, off := s.off + (min plen rem : Nat) } := by
          obtain ⟨hr, hu, hidx, hof, hbase⟩ := hs
          refine ⟨hr, hu, ?_, ?_, ?_⟩
          · show s.idx + i ≤ segs.length
            omega
          · show (0 : Int) ≤ s.off + (min plen rem : Nat)
            omega
          · show ((segs.take (s.idx + i)).flatten.length : Int)
              ≤ s.off + (min plen rem : Nat)
            have h5 := h5base
            omega
        have hofn : (s.off + ((min plen rem : Nat) : Int)).toNat
            = s.off.toNat + min plen rem := by omega
        have hrec := ih { s with idx := s.idx + i, off := s.off + (min plen rem : Nat) }
          hs' (by
            show segs.flatten.length - (s.off + ((min plen rem : Nat) : Int)).toNat < fuel
            omega)
        simp only [readAll, hread, hrec, hofn]
        rw [show segs.flatten.drop (s.off.toNat + min plen rem)
            = (segs.flatten.drop s.off.toNat).drop (min plen rem) from
          (List.drop_drop _ _ _).symm ▸ rfl]
        rw [List.take_append_drop]

/-- Master evaluation lemma for the single-segment `readAt` on an
exact-segments session: a read at `off` serves `min plen rem` bytes of the
logical byte sequence, `rem` being the remaining capacity of the segment
containing `off`, and reports `io.EOF` exactly when the request was
truncated at the end of the final segment. -/
theorem readAt_eq {segs : List (List Nat)} {s : multiReadAtSeekCloser}
    (hs : ExactState segs s) (plen : Nat) (off : Int)
    (h0 : 0 ≤ off) (hlt : off < (segs.flatten.length : Int)) :
    ∃ i rem,
      1 ≤ rem ∧
      off.toNat + rem ≤ segs.flatten.length ∧
      (off.toNat + rem < segs.flatten.length → i < segs.length - 1) ∧
      i < segs.length ∧
      readAt s plen off =
        ((segs.flatten.drop off.toNat).take (min plen rem),
          if rem < plen ∧ segs.length - 1 ≤ i then some .eof else none) := by
  obtain ⟨hr, hu, hidx, hoff0s, hbase⟩ := hs
  have hkl : off.toNat < segs.flatten.length := by omega
  obtain ⟨i, c, pre, h1, h2, h3, h4, h5, h6, h7, h8, h9⟩ := exact_lookup segs 0 off.toNat hkl
  have hoffeq : (((0 : Nat) : Int) + (off.toNat : Int)) = off := by
    push_cast
    omega
  rw [hoffeq] at h1
  have hrlen : s.r.length = segs.length := by
    rw [hr, translateAux_length]
    simp [exactSegments]
  have hsearch : search off s.r = some i := by
    rw [hr, search_eq_linearScan_chained (chained_translateAux _ _)]
    exact h1
  have hget : s.r.get? i = some ⟨⟨c, c.length⟩, 0 + pre⟩ := by
    rw [hr]
    exact h2
  have hjeq : off - ((0 + pre : Nat) : Int) = ((off.toNat - pre : Nat) : Int) := by
    push_cast
    omega
  have hbytes : bytesReadAt c plen (off - ((0 + pre : Nat) : Int))
      = ((c.drop (off.toNat - pre)).take plen,
          if min plen (c.length - (off.toNat - pre)) < plen then some .eof else none) := by
    rw [hjeq]
    unfold bytesReadAt
    rw [if_neg (by omega), if_neg (by push_cast; omega)]
    simp only [Int.toNat_natCast, List.length_take, List.length_drop]
  have hnotend : ¬ (off < 0 ∨ s.upperLimit ≤ off) := by
    rw [hu]
    omega
  have hbnd : (segs.flatten.drop off.toNat).take (min plen (c.length - (off.toNat - pre)))
      = (c.drop (off.toNat - pre)).take (min plen (c.length - (off.toNat - pre))) := by
    rw [h7, List.take_append_of_le_length]
    rw [List.length_drop]
    omega
  refine ⟨i, c.length - (off.toNat - pre), by omega, by omega, ?_, h3, ?_⟩
  · intro hmore
    have hne : 0 < (segs.drop (i + 1)).flatten.length := by omega
    have hlen : segs.drop (i + 1) ≠ [] := by
      intro hz
      rw [hz] at hne
      simp at hne
    have hlen2 : 0 < (segs.drop (i + 1)).length := List.length_pos.mpr hlen
    rw [List.length_drop] at hlen2
    omega
  · simp only [readAt, hsearch, hget, hbytes, if_neg hnotend, List.length_take,
      List.length_drop]
    rw [hbnd]
    by_cases hrem : c.length - (off.toNat - pre) < plen
    · have hmin : min plen (c.length - (off.toNat - pre))
          = c.length - (off.toNat - pre) := by omega
      rw [hmin, if_pos hrem]
      rw [if_neg (show ¬ ((some RErr.eof : Option RErr) ≠ none
          ∧ (some RErr.eof : Option RErr) ≠ some .eof) from by simp)]
      rw [if_neg (show ¬ ((c.length : Int) - (off - ((0 + pre : Nat) : Int))
          < ((c.length - (off.toNat - pre) : Nat) : Int)) from by push_cast; omega)]
      rw [if_neg (show ¬ ((some RErr.eof : Option RErr) = some .eof
          ∧ c.length - (off.toNat - pre) = 0
          ∧ 0 < (c.length : Int) - (off - ((0 + pre : Nat) : Int))) from by
        rintro ⟨-, hz, -⟩
        omega)]
      rw [hrlen]
      have htk1 : List.take plen (List.drop (off.toNat - pre) c)
          = List.drop (off.toNat - pre) c :=
        List.take_of_length_le (by rw [List.length_drop]; omega)
      have htk2 : List.take (c.length - (off.toNat - pre)) (List.drop (off.toNat - pre) c)
          = List.drop (off.toNat - pre) c :=
        List.take_of_length_le (by rw [List.length_drop])
      rw [htk1, htk2]
      by_cases hlast : i < segs.length - 1
      · rw [if_pos ⟨rfl, hlast⟩, if_neg (by omega)]
      · rw [if_neg (by rintro ⟨-, hx⟩; omega), if_pos ⟨hrem, by omega⟩]
    · have hmin : min plen (c.length - (off.toNat - pre)) = plen := by omega
      rw [hmin, if_neg (lt_irrefl plen)]
      rw [if_neg (show ¬ ((none : Option RErr) ≠ none ∧ (none : Option RErr) ≠ some .eof)
        from by simp)]
      rw [if_neg (show ¬ ((c.length : Int) - (off - ((0 + pre : Nat) : Int)) < (plen : Nat))
        from by push_cast; omega)]
      rw [if_neg (show ¬ ((none : Option RErr) = some .eof ∧ plen = 0
          ∧ 0 < (c.length : Int) - (off - ((0 + pre : Nat) : Int)))
        from fun hAnd => Option.noConfusion hAnd.1)]
      rw [if_neg (show ¬ ((none : Option RErr) = some .eof ∧ i < s.r.length - 1)
        from fun hAnd => Option.noConfusion hAnd.1)]
      rw [if_neg (show ¬ (c.length - (off.toNat - pre) < plen ∧ segs.length - 1 ≤ i)
        from by omega)]

/-- The `ReadAt` segment loop fulfils an in-bounds request exactly,
reporting `io.EOF` precisely when the request was trimmed
(`maxExceeded`). -/
theorem readAtLoop_exact {segs : List (List Nat)} {s : multiReadAtSeekCloser}
    (hs : ExactState segs s) :
    ∀ (fuel plen : Nat) (off : Int) (mx : Bool),
      plen < fuel → 0 ≤ off → off < (segs.flatten.length : Int) →
      off.toNat + plen ≤ segs.flatten.length →
      readAtLoop s fuel plen off mx =
        ((segs.flatten.drop off.toNat).take plen,
          if mx then some .eof else none) := by
  intro fuel
  induction fuel with
  | zero =>
    intro plen off mx hfu h0 hlt hbound
    omega
  | succ fuel ih =>
    intro plen off mx hfu h0 hlt hbound
    obtain ⟨i, rem, h1rem, h2sum, h3more, h4lt, hreadAt⟩ := readAt_eq hs plen off h0 hlt
    by_cases hrem : rem < plen
    · have hmin : min plen rem = rem := by omega
      have hlastno : i < segs.length - 1 := h3more (by omega)
      rw [hmin, if_neg (show ¬ (rem < plen ∧ segs.length - 1 ≤ i) from by omega)] at hreadAt
      have hnn : ((segs.flatten.drop off.toNat).take rem).length = rem := by
        rw [List.length_take, List.length_drop]
        omega
    -- continue into the next segment
      simp only [readAtLoop, hreadAt, hnn]
      rw [if_neg (show ¬ (rem = plen ∨ (none : Option RErr) ≠ none) from by
        rintro (h' | h')
        · omega
        · exact h' rfl)]
      have hrec := ih (plen - rem) (off + rem) mx (by omega) (by omega)
        (by push_cast; omega) (by omega)
      rw [hrec]
      have hdd : segs.flatten.drop (off + (rem : Int)).toNat
          = (segs.flatten.drop off.toNat).drop rem := by
        rw [List.drop_drop]
        congr 1
        omega
      rw [hdd, ← List.take_add]
      congr 2
      omega
    · have hmin : min plen rem = plen := by omega
      rw [hmin, if_neg (show ¬ (rem < plen ∧ segs.length - 1 ≤ i) from by
        rintro ⟨h', -⟩
        omega)] at hreadAt
      have hnn : ((segs.flatten.drop off.toNat).take plen).length = plen := by
        rw [List.length_take, List.length_drop]
        omega
      simp only [readAtLoop, hreadAt, hnn]
      rw [if_pos (Or.inl trivial)]
      cases mx with
      | true => simp
      | false => simp

/-- `ReadAt` on an exact-segments session returns exactly the slice of the
logical byte sequence, reporting `io.EOF` exactly for an offset at or past
the end or a request reaching past the end. -/
theorem ReadAt_exact {segs : List (List Nat)} {s : multiReadAtSeekCloser}
    (hs : ExactState segs s) (plen : Nat) (off : Int) (h0 : 0 ≤ off) :
    ReadAt s plen off =
      ((segs.flatten.drop off.toNat).take plen,
        if (segs.flatten.length : Int) ≤ off ∨ (segs.flatten.length : Int) - off < plen
        then some .eof else none) := by
  have hu := hs.2.1
  unfold ReadAt
  by_cases hend : (segs.flatten.length : Int) ≤ off
  · rw [if_pos (Or.inr (by rw [hu]; exact hend))]
    have hnil : segs.flatten.drop off.toNat = [] :=
      List.drop_eq_nil_of_le (by omega)
    rw [hnil, if_pos (Or.inl hend), List.take_nil]
  · push_neg at hend
    rw [if_neg (by rw [hu]; omega)]
    by_cases hmax : s.upperLimit - off < (plen : Int)
    · rw [if_pos hmax]
      have hmax' : (segs.flatten.length : Int) - off < (plen : Int) := by
        rw [hu] at hmax
        exact hmax
      have havail : (s.upperLimit - off).toNat = segs.flatten.length - off.toNat := by
        rw [hu]
        omega
      have hloop := readAtLoop_exact hs ((s.upperLimit - off).toNat + 1)
        ((s.upperLimit - off).toNat) off true (by omega) h0 hend
        (by rw [havail]; omega)
      rw [hloop, havail, if_pos (Or.inr hmax')]
      rw [List.take_of_length_le (by rw [List.length_drop]),
        List.take_of_length_le (by rw [List.length_drop]; omega)]
      rw [if_pos rfl]
    · rw [if_neg hmax]
      have hmax' : (plen : Int) ≤ (segs.flatten.length : Int) - off := by
        rw [hu] at hmax
        omega
      rw [readAtLoop_exact hs (plen + 1) plen off false (by omega) h0 hend (by omega)]
      rw [if_neg (show ¬ ((segs.flatten.length : Int) ≤ off
        ∨ (segs.flatten.length : Int) - off < (plen : Int)) from by omega)]
      rfl

/-- Prefix flattening is monotone in the number of segments taken. -/
theorem take_flatten_mono (segs : List (List Nat)) {m n : Nat} (h : m ≤ n) :
    (segs.take m).flatten.length ≤ (segs.take n).flatten.length := by
  have hsplit := flatten_take_add_drop (segs.take n) m
  rw [List.take_take, Nat.min_eq_left h] at hsplit
  omega

/-- The offset `Seek` resolves against the given whence. -/
def seekTarget (s : multiReadAtSeekCloser) (offset : Int) : Whence → Int
  | .seekStart => offset
  | .seekCurrent => offset + s.off
  | .seekEnd => offset + s.upperLimit

/-- `Seek` to any non-negative resolved offset succeeds and stores it,
leaving the readers and the upper limit untouched. -/
theorem Seek_ok (s : multiReadAtSeekCloser) (offset : Int) (whence : Whence)
    (hres : 0 ≤ seekTarget s offset whence) :
    ∃ s', Seek s offset whence = (s', .ok (seekTarget s offset whence)) ∧
      s'.off = seekTarget s offset whence ∧
      s'.upperLimit = s.upperLimit ∧ s'.r = s.r := by
  cases whence with
  | seekStart =>
    simp only [seekTarget] at hres ⊢
    simp only [Seek]
    rw [if_neg (show ¬ offset < 0 from by omega)]
    by_cases hend : ({ s with off := offset } : multiReadAtSeekCloser).upperLimit
        ≤ ({ s with off := offset } : multiReadAtSeekCloser).off
    · rw [if_pos hend]
      exact ⟨_, rfl, rfl, rfl, rfl⟩
    · rw [if_neg hend]
      rcases hsr : search offset ({ s with off := offset } : multiReadAtSeekCloser).r
          with - | i <;> exact ⟨_, rfl, rfl, rfl, rfl⟩
  | seekCurrent =>
    simp only [seekTarget] at hres ⊢
    simp only [Seek]
    rw [if_neg (show ¬ offset + s.off < 0 from by omega)]
    by_cases hend : ({ s with off := offset + s.off } : multiReadAtSeekCloser).upperLimit
        ≤ ({ s with off := offset + s.off } : multiReadAtSeekCloser).off
    · rw [if_pos hend]
      exact ⟨_, rfl, rfl, rfl, rfl⟩
    · rw [if_neg hend]
      rcases hsr : search (offset + s.off)
          ({ s with off := offset + s.off } : multiReadAtSeekCloser).r
          with - | i <;> exact ⟨_, rfl, rfl, rfl, rfl⟩
  | seekEnd =>
    simp only [seekTarget] at hres ⊢
    simp only [Seek]
    rw [if_neg (show ¬ offset + s.upperLimit < 0 from by omega)]
    by_cases hend : ({ s with off := offset + s.upperLimit } : multiReadAtSeekCloser).upperLimit
        ≤ ({ s with off := offset + s.upperLimit } : multiReadAtSeekCloser).off
    · rw [if_pos hend]
      exact ⟨_, rfl, rfl, rfl, rfl⟩
    · rw [if_neg hend]
      rcases hsr : search (offset + s.upperLimit)
          ({ s with off := offset + s.upperLimit } : multiReadAtSeekCloser).r
          with - | i <;> exact ⟨_, rfl, rfl, rfl, rfl⟩

/-- `Read` at or past the upper limit returns zero bytes and `io.EOF`,
leaving the state untouched. -/
theorem Read_eof (s : multiReadAtSeekCloser) (plen : Nat)
    (h : s.upperLimit ≤ s.off) : Read s plen = (s, [], some .eof) := by
  unfold Read
  rw [if_pos h]

/-- `Seek` with `SeekStart` on an exact-segments session re-establishes the
session invariant at the sought offset. -/
theorem Seek_start_exact {segs : List (List Nat)} {s : multiReadAtSeekCloser}
    (hs : ExactState segs s) (off : Int) (h0 : 0 ≤ off) :
    ∃ s', Seek s off .seekStart = (s', .ok off) ∧ ExactState segs s' ∧
      s'.off = off := by
  obtain ⟨hr, hu, hidx, hoff0s, hbase⟩ := hs
  simp only [Seek]
  rw [if_neg (by omega)]
  by_cases hend : (segs.flatten.length : Int) ≤ off
  · rw [if_pos (show ({ s with off := off } : multiReadAtSeekCloser).upperLimit
        ≤ ({ s with off := off } : multiReadAtSeekCloser).off from by
      show s.upperLimit ≤ off
      rw [hu]
      exact hend)]
    refine ⟨_, rfl, ⟨hr, hu, ?_, h0, ?_⟩, rfl⟩
    · show s.r.length ≤ segs.length
      rw [hr, translateAux_length]
      simp [exactSegments]
    · show ((segs.take s.r.length).flatten.length : Int) ≤ off
      calc ((segs.take s.r.length).flatten.length : Int)
          ≤ (segs.flatten.length : Int) := by
            have := flatten_take_add_drop segs s.r.length
            omega
        _ ≤ off := hend
  · push_neg at hend
    rw [if_neg (show ¬ ({ s with off := off } : multiReadAtSeekCloser).upperLimit
        ≤ ({ s with off := off } : multiReadAtSeekCloser).off from by
      show ¬ s.upperLimit ≤ off
      rw [hu]
      omega)]
    have hkl : off.toNat < segs.flatten.length := by omega
    obtain ⟨i, c, pre, h1, h2, h3, h4, h5, h6, h7, h8, h9⟩ := exact_lookup segs 0 off.toNat hkl
    have hoffeq : (((0 : Nat) : Int) + (off.toNat : Int)) = off := by
      push_cast
      omega
    rw [hoffeq] at h1
    have hsearch : search off ({ s with off := off } : multiReadAtSeekCloser).r = some i := by
      show search off s.r = some i
      rw [hr, search_eq_linearScan_chained (chained_translateAux _ _)]
      exact h1
    rw [hsearch]
    refine ⟨_, rfl, ⟨hr, hu, ?_, h0, ?_⟩, rfl⟩
    · show i ≤ segs.length
      omega
    · show ((segs.take i).flatten.length : Int) ≤ off
      rw [← h4]
      omega

/-! ### Claim theorems for the segmented reader -/

/-- C5: for every reader list, once the accumulated starting offsets are
precomputed (as `NewMultiReadAtSeekCloser` does with `translate`), the
linear-scan lookup and the binary-search lookup agree on every logical
offset, and `search` — whichever strategy the threshold selects — always
returns the linear-scan result. -/
theorem spec_c5_search_equivalence (readers : List SizedReaderAt) (a : Nat) (off : Int) :
    binarySearch off (translateAux readers a) = linearScan off (translateAux readers a) ∧
    search off (translateAux readers a) = linearScan off (translateAux readers a) :=
  ⟨(linearScan_eq_binarySearch_chained (chained_translateAux readers a) off).symm,
    search_eq_linearScan_chained (chained_translateAux readers a) off⟩

/-- C9: `Seek` succeeds on every non-negative resolved offset — for all
three whence values, including positions at or beyond the upper limit —
returning exactly that position, and a subsequent `Read` at a position at
or past the upper limit returns zero bytes with `io.EOF`. -/
theorem spec_c9_seek_nonnegative (s : multiReadAtSeekCloser) (offset : Int)
    (whence : Whence) (plen : Nat) (hres : 0 ≤ seekTarget s offset whence) :
    ∃ s', Seek s offset whence = (s', .ok (seekTarget s offset whence)) ∧
      s'.off = seekTarget s offset whence ∧
      (s.upperLimit ≤ seekTarget s offset whence →
        Read s' plen = (s', [], some .eof)) := by
  obtain ⟨s', h1, h2, h3, h4⟩ := Seek_ok s offset whence hres
  exact ⟨s', h1, h2, fun hge => Read_eof s' plen (by rw [h3, h2]; exact hge)⟩

/-- Witness for C9 at a concrete session: seeking to 10 — past the upper
limit 3 of a two-segment reader — succeeds, and reading there yields
`io.EOF`. -/
theorem spec_c9_seek_nonnegative_witness :
    ∃ s', Seek (NewMultiReadAtSeekCloser (exactSegments [[5], [6, 7]])) 10 .seekStart
        = (s', .ok (seekTarget (NewMultiReadAtSeekCloser (exactSegments [[5], [6, 7]])) 10 .seekStart)) ∧
      s'.off = seekTarget (NewMultiReadAtSeekCloser (exactSegments [[5], [6, 7]])) 10 .seekStart ∧
      ((NewMultiReadAtSeekCloser (exactSegments [[5], [6, 7]])).upperLimit
          ≤ seekTarget (NewMultiReadAtSeekCloser (exactSegments [[5], [6, 7]])) 10 .seekStart →
        Read s' 4 = (s', [], some .eof)) :=
  spec_c9_seek_nonnegative (NewMultiReadAtSeekCloser (exactSegments [[5], [6, 7]]))
    10 .seekStart 4 (by decide)

/-- C3: on the serving path of `Read` and of `readAt` — a located segment
`rr` whose underlying reader returned bytes `bs` with error `err0`, the
error being absent or end-of-stream — the call reports the fatal
`ErrInvalidSize` when the reader returned more bytes than the declared
capacity remaining in the segment; the fatal `ErrUnexpectedEOF` when the
reader reported end-of-stream with zero bytes while declared capacity
remains; and swallows (reports no error for) an end-of-stream landing
exactly on the declared boundary while further segments remain. -/
theorem spec_c3_size_mismatch_errors :
    (∀ (s : multiReadAtSeekCloser) (plen i : Nat) (rr : sizedReaderAt)
        (bs : List Nat) (err0 : Option RErr),
      ¬ s.upperLimit ≤ s.off →
      search s.off (s.r.drop s.idx) = some i →
      (s.r.drop s.idx).get? i = some rr →
      bytesReadAt rr.data plen (s.off - (rr.accum : Int)) = (bs, err0) →
      (err0 = none ∨ err0 = some .eof) →
        (((rr.size : Int) - (s.off - (rr.accum : Int)) < (bs.length : Int) →
            (Read s plen).2.2 = some .invalidSize) ∧
          (err0 = some .eof → bs = [] →
            0 < (rr.size : Int) - (s.off - (rr.accum : Int)) →
            (Read s plen).2.2 = some .unexpectedEOF) ∧
          (err0 = some .eof →
            (rr.size : Int) - (s.off - (rr.accum : Int)) = (bs.length : Int) →
            s.idx + i < s.r.length - 1 →
            (Read s plen).2.2 = none))) ∧
    (∀ (s : multiReadAtSeekCloser) (plen i : Nat) (off : Int) (rr : sizedReaderAt)
        (bs : List Nat) (err0 : Option RErr),
      ¬ (off < 0 ∨ s.upperLimit ≤ off) →
      search off s.r = some i →
      s.r.get? i = some rr →
      bytesReadAt rr.data plen (off - (rr.accum : Int)) = (bs, err0) →
      (err0 = none ∨ err0 = some .eof) →
        (((rr.size : Int) - (off - (rr.accum : Int)) < (bs.length : Int) →
            (readAt s plen off).2 = some .invalidSize) ∧
          (err0 = some .eof → bs = [] →
            0 < (rr.size : Int) - (off - (rr.accum : Int)) →
            (readAt s plen off).2 = some .unexpectedEOF) ∧
          (err0 = some .eof →
            (rr.size : Int) - (off - (rr.accum : Int)) = (bs.length : Int) →
            i < s.r.length - 1 →
            (readAt s plen off).2 = none))) := by
  constructor
  · intro s plen i rr bs err0 hoff hsr hget hbytes herr
    refine ⟨?_, ?_, ?_⟩
    · intro hrem
      rcases herr with rfl | rfl <;>
        (simp only [Read, if_neg hoff, hsr, hget, hbytes];
          split_ifs <;>
            first
              | rfl
              | (exfalso; omega)
              | (exfalso; simp_all))
    · rintro rfl rfl hpos
      simp only [Read, if_neg hoff, hsr, hget, hbytes, List.length_nil]
      split_ifs <;>
        first
          | rfl
          | (exfalso; omega)
          | (exfalso; simp_all)
    · rintro rfl hbnd hmore
      simp only [Read, if_neg hoff, hsr, hget, hbytes]
      split_ifs <;>
        first
          | rfl
          | (exfalso; omega)
          | (exfalso; simp_all)
  · intro s plen i off rr bs err0 hoff hsr hget hbytes herr
    refine ⟨?_, ?_, ?_⟩
    · intro hrem
      rcases herr with rfl | rfl <;>
        (simp only [readAt, if_neg hoff, hsr, hget, hbytes];
          split_ifs <;>
            first
              | rfl
              | (exfalso; omega)
              | (exfalso; simp_all))
    · rintro rfl rfl hpos
      simp only [readAt, if_neg hoff, hsr, hget, hbytes, List.length_nil]
      split_ifs <;>
        first
          | rfl
          | (exfalso; omega)
          | (exfalso; simp_all)
    · rintro rfl hbnd hmore
      simp only [readAt, if_neg hoff, hsr, hget, hbytes]
      split_ifs <;>
        first
          | rfl
          | (exfalso; omega)
          | (exfalso; simp_all)

/-- Witness for C3 at concrete sessions: a segment declaring 2 bytes but
holding 3 yields `ErrInvalidSize`; a segment declaring 2 bytes but holding
none yields `ErrUnexpectedEOF`; an exact 1-byte segment read to its boundary
with a 2-byte request, with a second segment remaining, reports no error. -/
theorem spec_c3_size_mismatch_errors_witness :
    (Read (NewMultiReadAtSeekCloser [⟨[1, 2, 3], 2⟩]) 3).2.2 = some .invalidSize ∧
    (readAt (NewMultiReadAtSeekCloser [⟨[], 2⟩, ⟨[9], 1⟩]) 2 0).2 = some .unexpectedEOF ∧
    (Read (NewMultiReadAtSeekCloser [⟨[7], 1⟩, ⟨[8], 1⟩]) 2).2.2 = none := by
  refine ⟨?_, ?_, ?_⟩
  · exact (spec_c3_size_mismatch_errors.1 (NewMultiReadAtSeekCloser [⟨[1, 2, 3], 2⟩]) 3 0
      ⟨⟨[1, 2, 3], 2⟩, 0⟩ [1, 2, 3] none (by decide) (by decide) (by decide) (by decide)
      (Or.inl rfl)).1 (by decide)
  · exact (spec_c3_size_mismatch_errors.2 (NewMultiReadAtSeekCloser [⟨[], 2⟩, ⟨[9], 1⟩]) 2 0 0
      ⟨⟨[], 2⟩, 0⟩ [] (some .eof) (by decide) (by decide) (by decide) (by decide)
      (Or.inr rfl)).2.1 rfl rfl (by decide)
  · exact (spec_c3_size_mismatch_errors.1 (NewMultiReadAtSeekCloser [⟨[7], 1⟩, ⟨[8], 1⟩]) 2 0
      ⟨⟨[7], 1⟩, 0⟩ [7] (some .eof) (by decide) (by decide) (by decide) (by decide)
      (Or.inr rfl)).2.2 rfl (by decide) (by decide)

/-- C2 counterexample: on the partition `[[1], [2, 3]]` of the byte
sequence `[1, 2, 3]`, `Seek` to offset 0 followed by `Read` with a 2-byte
buffer returns just `[1]` — `Read` serves from a single segment per call —
while `ReadAt` at offset 0 with length 2 crosses the segment boundary and
returns `[1, 2]`; so `Seek` followed by `Read` is not equivalent to
`ReadAt` at the sought offset. -/
theorem spec_c2_counterexample :
    (Read (Seek (NewMultiReadAtSeekCloser (exactSegments [[1], [2, 3]])) 0 .seekStart).1 2).2.1
        = [1] ∧
    (ReadAt (NewMultiReadAtSeekCloser (exactSegments [[1], [2, 3]])) 2 0).1 = [1, 2] ∧
    ([1] : List Nat) ≠ [1, 2] := by decide

/-- C2 (amended): for every byte sequence given as a partition `segs` into
exact declared-size segments, (a) reading the segmented reader end-to-end
via `Read` produces exactly the flattened sequence with a final `io.EOF`;
(b) `ReadAt` at any non-negative offset and length produces exactly the
corresponding slice of the sequence, truncating a request that extends past
the logical end and reporting `io.EOF` for it, and yielding zero bytes with
`io.EOF` at or beyond the end; and (c) `Seek` to an offset followed by a
single `Read` returns the same bytes as `ReadAt` at that offset whenever
the requested range stays within the segment containing the offset —
though not in general, per the counterexample. -/
theorem spec_c2_roundtrip_amended (segs : List (List Nat)) :
    (∀ plen fuel, 1 ≤ plen → segs.flatten.length < fuel →
      readAll plen fuel (NewMultiReadAtSeekCloser (exactSegments segs))
        = (segs.flatten, some .eof)) ∧
    (∀ (plen : Nat) (off : Int), 0 ≤ off →
      ReadAt (NewMultiReadAtSeekCloser (exactSegments segs)) plen off
        = ((segs.flatten.drop off.toNat).take plen,
          if (segs.flatten.length : Int) ≤ off ∨ (segs.flatten.length : Int) - off < plen
          then some .eof else none)) ∧
    (∀ (plen : Nat) (off : Int) (j : Nat), 0 ≤ off →
      (segs.take j).flatten.length ≤ off.toNat →
      off.toNat < (segs.take (j + 1)).flatten.length →
      off.toNat + plen ≤ (segs.take (j + 1)).flatten.length →
      ∃ s', Seek (NewMultiReadAtSeekCloser (exactSegments segs)) off .seekStart
          = (s', .ok off) ∧
        (Read s' plen).2.1
          = (ReadAt (NewMultiReadAtSeekCloser (exactSegments segs)) plen off).1) := by
  refine ⟨?_, ?_, ?_⟩
  · intro plen fuel hp hfuel
    have hoff : (NewMultiReadAtSeekCloser (exactSegments segs)).off = 0 := rfl
    rw [readAll_exact plen hp fuel _ (exactState_new segs) (by rw [hoff]; omega)]
    rw [hoff]
    simp
  · intro plen off h0
    exact ReadAt_exact (exactState_new segs) plen off h0
  · intro plen off j h0 hj1 hj2 hj3
    have htot : (segs.take (j + 1)).flatten.length ≤ segs.flatten.length := by
      have := flatten_take_add_drop segs (j + 1)
      omega
    have hlt : off < (segs.flatten.length : Int) := by omega
    obtain ⟨s', hseek, hs', hoff'⟩ := Seek_start_exact (exactState_new segs) off h0
    have hlt' : s'.off < (segs.flatten.length : Int) := by rw [hoff']; exact hlt
    obtain ⟨i, rem, h1rem, h2sum, h3more, h4lt, h5base, hbound, hread⟩ :=
      Read_eq hs' plen hlt'
    rw [hoff'] at h5base hbound
    have hjb : j ≤ s'.idx + i := by
      by_contra hcon
      push_neg at hcon
      have := take_flatten_mono segs (show s'.idx + i + 1 ≤ j from by omega)
      omega
    have hmono := take_flatten_mono segs (show j + 1 ≤ s'.idx + i + 1 from by omega)
    have hmin : min plen rem = plen := by omega
    refine ⟨s', hseek, ?_⟩
    rw [hread, ReadAt_exact (exactState_new segs) plen off h0]
    simp [hmin, hoff']

/-- Witness for C2 (amended) on the partition `[[1], [2, 3]]`: reading all
yields `[1, 2, 3]` then `io.EOF`; an over-long `ReadAt` at offset 1 yields
the truncated tail with `io.EOF`; and `Seek` to offset 1 followed by a
2-byte `Read` — a range inside the second segment — matches `ReadAt`. -/
theorem spec_c2_roundtrip_amended_witness :
    readAll 2 4 (NewMultiReadAtSeekCloser (exactSegments [[1], [2, 3]]))
        = ([1, 2, 3], some .eof) ∧
    ReadAt (NewMultiReadAtSeekCloser (exactSegments [[1], [2, 3]])) 5 1
        = ([2, 3], some .eof) ∧
    ∃ s', Seek (NewMultiReadAtSeekCloser (exactSegments [[1], [2, 3]])) 1 .seekStart
        = (s', .ok 1) ∧
      (Read s' 2).2.1
        = (ReadAt (NewMultiReadAtSeekCloser (exactSegments [[1], [2, 3]])) 2 1).1 := by
  obtain ⟨ha, hb, hc⟩ := spec_c2_roundtrip_amended [[1], [2, 3]]
  refine ⟨?_, ?_, ?_⟩
  · exact (ha 2 4 (by decide) (by decide)).trans (by decide)
  · exact (hb 5 1 (by decide)).trans (by decide)
  · exact hc 2 1 1 (by decide) (by decide) (by decide) (by decide)

end stream

namespace fsutil

/-! ## `fsutil/copy.go`: copy options -/

/-- `fsutil.nonRegularFileHandling` (a string in Go: `""` to error out,
`"ignore"` to skip). -/
inductive nonRegularFileHandling where
  | err
  | ignore
deriving DecidableEq

/-- `fsutil.copyFsOption`.  `chmodIf` models Go's
`func(path) (perm, ok)` with an `Option`; `ctx` models an attached
`context.Context` by whether one is present and already cancelled. -/
structure copyFsOption where
  handleNonRegularFile : nonRegularFileHandling
  chmodIf : Option (List Char → Option Nat)
  noChmod : Bool
  ctx : Option Bool

/-- The `CopyFsOption` option functions of `copy.go`. -/
inductive CopyFsOption where
  | ignoreNonRegularFile
  | noChmod (b : Bool)
  | overridePermission (chmodIf : List Char → Option Nat)
  | withContext (cancelled : Bool)

/-- Application of one `CopyFsOption` to the option record. -/
def applyCopyFsOption (o : copyFsOption) : CopyFsOption → copyFsOption
  | .ignoreNonRegularFile => { o with handleNonRegularFile := .ignore }
  | .noChmod b => { o with noChmod := b }
  | .overridePermission f => { o with chmodIf := some f }
  | .withContext c => { o with ctx := some c }

/-- `fsutil.newCopyFsOption`. -/
def newCopyFsOption (opts : List CopyFsOption) : copyFsOption :=
  opts.foldl applyCopyFsOption
    { handleNonRegularFile := .err, chmodIf := none, noChmod := false, ctx := none }

/-! ## `fsutil/safe_write.go`: options and the safe-write control flow -/

/-- Error kinds the safe-write steps can produce; `procErr n` stands for an
error value returned by a pre- or post-process hook. -/
inductive SWErr where
  | mkdirTmpFail
  | openTmpFail
  | copyFail
  | chmodFail
  | chownFail
  | syncFail
  | closeFail
  | mkdirDstFail
  | renameFail
  | procErr (n : Nat)
deriving DecidableEq

/-- `SafeWritePreProcess`: a hook receiving the temp name and the
destination name, possibly failing. -/
abbrev SafeWritePreProcess := List Char → List Char → Option SWErr

/-- `SafeWritePostProcess`: same shape as a pre-process hook. -/
abbrev SafeWritePostProcess := List Char → List Char → Option SWErr

/-- `fsutil.tmpFileOption`.  The fields `pre` and `suf` carry what the Go
struct stores in its two affix fields. -/
structure tmpFileOption where
  tmpDirName : List Char
  pre : List Char
  suf : List Char
  randomPattern : List Char

/-- `fsutil.SafeWriteOption`. -/
structure SafeWriteOption extends tmpFileOption where
  disableMkdir : Bool
  forcePerm : Bool
  disableRemoveOnErr : Bool
  ignoreMatchedErr : Option (SWErr → Bool)
  copyFsOptions : List CopyFsOption
  uid : Int
  gid : Int
  defaultPreProcess : List SafeWritePreProcess
  defaultPostProcesses : List SafeWritePostProcess
  disableSync : Bool

/-- The `SafeWriteOptionOption` option functions, one constructor per
`With*` constructor of `safe_write.go` (for `WithPrefixSuffix` and
`WithRandomPattern`, the successfully validated case). -/
inductive SafeWriteOptionOption where
  | withTmpDir (tmpDirName : List Char)
  | withDisableMkdir (b : Bool)
  | withForcePerm (b : Bool)
  | withDisableRemoveOnErr (b : Bool)
  | withIgnoreMatchedErr (f : Option (SWErr → Bool))
  | withCopyFsOptions (opts : List CopyFsOption)
  | withPrefixSuffix (p s : List Char)
  | withRandomPattern (p : List Char)
  | withOwner (uid gid : Int)
  | withDefaultPreProcesses (ps : List SafeWritePreProcess)
  | withDefaultPostProcesses (ps : List SafeWritePostProcess)
  | withDisableSync (b : Bool)

/-- Application of one option function to a `SafeWriteOption`. -/
def applyOption (o : SafeWriteOption) : SafeWriteOptionOption → SafeWriteOption
  | .withTmpDir d => { o with tmpDirName := if d = [] then d else gopath.cleanL d }
  | .withDisableMkdir b => { o with disableMkdir := b }
  | .withForcePerm b => { o with forcePerm := b }
  | .withDisableRemoveOnErr b => { o with disableRemoveOnErr := b }
  | .withIgnoreMatchedErr f => { o with ignoreMatchedErr := f }
  | .withCopyFsOptions opts => { o with copyFsOptions := opts }
  | .withPrefixSuffix p s => { o with pre := p, suf := s }
  | .withRandomPattern p => { o with randomPattern := p }
  | .withOwner u g => { o with uid := u, gid := g }
  | .withDefaultPreProcesses ps => { o with defaultPreProcess := ps }
  | .withDefaultPostProcesses ps => { o with defaultPostProcesses := ps }
  | .withDisableSync b => { o with disableSync := b }

/-- `fsutil.NewSafeWriteOption`: the zero value with random pattern `"-*"`
and owner ids `-1`, then the option functions applied in order. -/
def NewSafeWriteOption (opts : List SafeWriteOptionOption) : SafeWriteOption :=
  opts.foldl applyOption
    { tmpDirName := [], pre := [], suf := [], randomPattern := ['-', '*'],
      disableMkdir := false, forcePerm := false, disableRemoveOnErr := false,
      ignoreMatchedErr := none, copyFsOptions := [], uid := -1, gid := -1,
      defaultPreProcess := [], defaultPostProcesses := [], disableSync := false }

instance : Inhabited SafeWriteOption := ⟨NewSafeWriteOption []⟩

/-- A heap of `SafeWriteOption` values: Go pointers are indices into the
cell list, and taking the address of a value that escapes appends a cell. -/
structure SWHeap where
  cells : List SafeWriteOption

/-- `SafeWriteOption.Apply` in the heap model: the value receiver copies
the option out of cell `p`, the loop applies each option function to that
copy through its address, and returning `&o` publishes the copy as a fresh
heap cell whose index is the returned pointer. -/
def Apply (h : SWHeap) (p : Nat) (opts : List SafeWriteOptionOption) : SWHeap × Nat :=
  (⟨h.cells ++ [opts.foldl applyOption (h.cells.getD p default)]⟩, h.cells.length)

/-- An environment fixing the outcome of each filesystem step `safeWrite`
performs, and the temp name `openTmp` yields on success. -/
structure SWEnv where
  mkdirTmpFails : Bool
  openTmpFails : Bool
  tmpName : List Char
  copyFails : Bool
  chmodFails : Bool
  chownFails : Bool
  syncFails : Bool
  closeFails : Bool
  mkdirDstFails : Bool
  renameFails : Bool
deriving DecidableEq

/-- The outcome of one `safeWrite` call: the reported error, whether the
deferred cleanup removed the temp artifact, and whether the final rename
installed the destination. -/
structure SWResult where
  err : Option SWErr
  tmpRemoved : Bool
  renamed : Bool
deriving DecidableEq

/-- Run hooks in order, stopping at the first error (each loop in
`safeWrite` returns on the first failing hook). -/
def runProcs (procs : List SafeWritePreProcess) (tmpName dstName : List Char) :
    Option SWErr :=
  match procs with
  | [] => none
  | p :: rest =>
    match p tmpName dstName with
    | some e => some e
    | none => runProcs rest tmpName dstName

/-- Whether the configured `ignoreMatchedErr` predicate is present and
matches the error. -/
def ignoreMatched (o : SafeWriteOption) (e : SWErr) : Bool :=
  match o.ignoreMatchedErr with
  | some f => f e
  | none => false

/-- The decision of the deferred cleanup in `safeWrite`: on an error the
temp artifact is removed unless the ignore predicate matches it or removal
on error is disabled. -/
def cleanupRuns (o : SafeWriteOption) (e : SWErr) : Bool :=
  !(ignoreMatched o e) && !o.disableRemoveOnErr

/-- The body of `safeWrite` between a successful `openTmp` and the return:
pre-processes, copy, optional chmod, optional chown, post-processes
(call-site hooks then defaults), optional sync, close, optional mkdir of
the destination parent, and the final rename. -/
def safeWriteBody (o : SafeWriteOption) (env : SWEnv) (dstName : List Char)
    (postProcesses : List SafeWritePostProcess) : Option SWErr :=
  match runProcs o.defaultPreProcess env.tmpName dstName with
  | some e => some e
  | none =>
    if env.copyFails then some .copyFail
    else if o.forcePerm && env.chmodFails then some .chmodFail
    else if (decide (0 ≤ o.uid) || decide (0 ≤ o.gid)) && env.chownFails then
      some .chownFail
    else
      match runProcs (postProcesses ++ o.defaultPostProcesses) env.tmpName dstName with
      | some e => some e
      | none =>
        if !o.disableSync && env.syncFails then some .syncFail
        else if env.closeFails then some .closeFail
        else if !o.disableMkdir && env.mkdirDstFails then some .mkdirDstFail
        else if env.renameFails then some .renameFail
        else none

/-- `SafeWriteOption.safeWrite`: mkdir of the temp dir and `openTmp` fail
before the deferred cleanup is installed; any error after that point runs
the cleanup decision on the temp artifact. -/
def safeWrite (o : SafeWriteOption) (env : SWEnv) (dstName : List Char)
    (postProcesses : List SafeWritePostProcess) : SWResult :=
  if !o.disableMkdir && env.mkdirTmpFails then ⟨some .mkdirTmpFail, false, false⟩
  else if env.openTmpFails then ⟨some .openTmpFail, false, false⟩
  else
    match safeWriteBody o env dstName postProcesses with
    | some e => ⟨some e, cleanupRuns o e, false⟩
    | none => ⟨none, false, true⟩

/-! ## `fsutil/safe_write.go`: `openRandom` -/

/-- Outcome of one `open` callback attempt inside `openRandom`
(`os.IsExist` distinguishes a name collision from any other failure). -/
inductive OpenRes where
  | ok
  | errExist
  | errOther
deriving DecidableEq

/-- Errors `openRandom` can return. -/
inductive ORErr where
  | badPattern
  | maxRetry
  | errOther
deriving DecidableEq

/-- The retry bound of `openRandom` (`attempt < 10000`). -/
def maxRetryAttempts : Nat := 10000

/-- `strings.LastIndex(pattern, "*")` as a split: `none` when the pattern
holds no `*`, otherwise the parts before and after the last `*`. -/
def splitLastStar : List Char → Option (List Char × List Char)
  | [] => none
  | c :: rest =>
    match splitLastStar rest with
    | some (p, s) => some (c :: p, s)
    | none => if c = '*' then some ([], rest) else none

/-- The name one `openRandom` attempt opens:
`path.Join(dir, prefix+random+suffix)`. -/
def randName (dir pre suf rnd : List Char) : List Char :=
  gopath.cleanL (dir ++ '/' :: (pre ++ rnd ++ suf))

/-- The substitute for an empty `dir` argument of `openRandom`. -/
def dirOrTmp (dir : List Char) : List Char :=
  if dir = [] then ['t', 'm', 'p'] else dir

/-- The retry loop of `openRandom`: Go counts an `attempt` per name
collision and gives up when it reaches 10000, so the fuel counts the
remaining permitted `open` calls; `openF` is the outcome of the `open`
callback at each name and `randGen` the successive random components. -/
def openRandomLoop (openF : List Char → OpenRes) (randGen : Nat → List Char)
    (dir pre suf : List Char) : Nat → Nat → Except ORErr (List Char)
  | _, 0 => .error .maxRetry
  | iter, fuel + 1 =>
    let name := randName dir pre suf (randGen iter)
    match openF name with
    | .ok => .ok name
    | .errExist => openRandomLoop openF randGen dir pre suf (iter + 1) fuel
    | .errOther => .error .errOther

/-- `fsutil.openRandom`: empty `dir` defaults to `tmp`; a pattern holding a
path separator is rejected; the pattern splits around its last `*` (all of
it the name pad when it has none); then the open is retried on collisions. -/
def openRandom (dir pattern : List Char) (openF : List Char → OpenRes)
    (randGen : Nat → List Char) : Except ORErr (List Char) :=
  if pattern.contains '/' then .error .badPattern
  else
    match splitLastStar pattern with
    | none => openRandomLoop openF randGen (dirOrTmp dir) pattern [] 0 maxRetryAttempts
    | some (p, s) => openRandomLoop openF randGen (dirOrTmp dir) p s 0 maxRetryAttempts

/-- If every generated name collides, the retry loop exhausts its permitted
attempts and reports the max-retry error. -/
theorem openRandomLoop_all_collide (openF : List Char → OpenRes)
    (randGen : Nat → List Char) (dir pre suf : List Char) :
    ∀ (fuel iter : Nat),
      (∀ k, openF (randName dir pre suf (randGen k)) = .errExist) →
      openRandomLoop openF randGen dir pre suf iter fuel = .error .maxRetry := by
  intro fuel
  induction fuel with
  | zero => intro iter h; rfl
  | succ fuel ih =>
    intro iter h
    simp only [openRandomLoop, h iter]
    exact ih (iter + 1) h

/-- If the first `j` generated names collide and the next attempt does not
collide, the loop stops right there: a success returns that name and any
other failure is returned as-is. -/
theorem openRandomLoop_stops (openF : List Char → OpenRes)
    (randGen : Nat → List Char) (dir pre suf : List Char) :
    ∀ (fuel iter j : Nat) (r : Except ORErr (List Char)), j < fuel →
      (∀ k, k < j → openF (randName dir pre suf (randGen (iter + k))) = .errExist) →
      ((openF (randName dir pre suf (randGen (iter + j))) = .errOther ∧
          r = .error .errOther) ∨
        (openF (randName dir pre suf (randGen (iter + j))) = .ok ∧
          r = .ok (randName dir pre suf (randGen (iter + j))))) →
      openRandomLoop openF randGen dir pre suf iter fuel = r := by
  intro fuel
  induction fuel with
  | zero => intro iter j r hj _ _; omega
  | succ fuel ih =>
    intro iter j r hj hcoll hstop
    cases j with
    | zero =>
      rw [Nat.add_zero] at hstop
      rcases hstop with ⟨ho, rfl⟩ | ⟨ho, rfl⟩ <;> simp only [openRandomLoop, ho]
    | succ jj =>
      have h0 : openF (randName dir pre suf (randGen iter)) = .errExist := by
        have := hcoll 0 (by omega)
        rwa [Nat.add_zero] at this
      simp only [openRandomLoop, h0]
      refine ih (iter + 1) jj r (by omega) ?_ ?_
      · intro k hk
        have := hcoll (k + 1) (by omega)
        rwa [show iter + (k + 1) = iter + 1 + k from by omega] at this
      · rwa [show iter + (jj + 1) = iter + 1 + jj from by omega] at hstop

/-! ### Claim theorems for safe-write -/

/-- C1 counterexample: with the default options — temp-artifact removal not
disabled, no ignore predicate — a `safeWrite` whose every step succeeds
except the final rename reports the rename error AND removes the temp
artifact, so a rename failure does trigger cleanup. -/
theorem spec_c1_counterexample :
    (safeWrite (NewSafeWriteOption [])
        ⟨false, false, ['t'], false, false, false, false, false, false, true⟩
        ['d'] []).err = some .renameFail ∧
    (safeWrite (NewSafeWriteOption [])
        ⟨false, false, ['t'], false, false, false, false, false, false, true⟩
        ['d'] []).tmpRemoved = true := by
  constructor <;> rfl

/-- C1 (amended): when every step up to the final rename succeeds and the
rename fails, `safeWrite` reports the rename error and leaves the
destination uninstalled, and the deferred cleanup removes the temp artifact
exactly when the ignore predicate does not match the error and removal on
error is not disabled; in particular, under the claim's configuration —
removal not disabled, no matching predicate — the temp artifact IS
removed rather than left in place. -/
theorem spec_c1_rename_failure_cleanup (o : SafeWriteOption) (env : SWEnv)
    (dstName : List Char) (posts : List SafeWritePostProcess)
    (hmk : o.disableMkdir = false → env.mkdirTmpFails = false)
    (hopen : env.openTmpFails = false)
    (hpre : runProcs o.defaultPreProcess env.tmpName dstName = none)
    (hcopy : env.copyFails = false)
    (hchmod : o.forcePerm = true → env.chmodFails = false)
    (hchown : (0 ≤ o.uid ∨ 0 ≤ o.gid) → env.chownFails = false)
    (hpost : runProcs (posts ++ o.defaultPostProcesses) env.tmpName dstName = none)
    (hsync : o.disableSync = false → env.syncFails = false)
    (hclose : env.closeFails = false)
    (hmk2 : o.disableMkdir = false → env.mkdirDstFails = false)
    (hren : env.renameFails = true) :
    safeWrite o env dstName posts
      = ⟨some .renameFail, cleanupRuns o .renameFail, false⟩ ∧
    (o.disableRemoveOnErr = false → ignoreMatched o .renameFail = false →
      (safeWrite o env dstName posts).tmpRemoved = true) := by
  have h1 : (o.forcePerm && env.chmodFails) = false := by
    cases hfp : o.forcePerm
    · simp
    · simp [hchmod hfp]
  have h2 : ((decide (0 ≤ o.uid) || decide (0 ≤ o.gid)) && env.chownFails) = false := by
    by_cases hu : 0 ≤ o.uid
    · simp [hchown (Or.inl hu)]
    · by_cases hg : 0 ≤ o.gid
      · simp [hchown (Or.inr hg)]
      · simp [hu, hg]
  have h3 : (!o.disableSync && env.syncFails) = false := by
    cases hds : o.disableSync
    · simp [hsync hds]
    · simp
  have h4 : (!o.disableMkdir && env.mkdirDstFails) = false := by
    cases hdm : o.disableMkdir
    · simp [hmk2 hdm]
    · simp
  have h0 : (!o.disableMkdir && env.mkdirTmpFails) = false := by
    cases hdm : o.disableMkdir
    · simp [hmk hdm]
    · simp
  have hbody : safeWriteBody o env dstName posts = some .renameFail := by
    simp only [safeWriteBody, hpre, hpost, hcopy, h1, h2, h3, h4, hclose, hren]
    rfl
  have hres : safeWrite o env dstName posts
      = ⟨some .renameFail, cleanupRuns o .renameFail, false⟩ := by
    simp only [safeWrite, h0, hopen, hbody]
    rfl
  refine ⟨hres, fun hdr hig => ?_⟩
  rw [hres]
  show cleanupRuns o .renameFail = true
  simp [cleanupRuns, hig, hdr]

/-- Witness for C1 (amended) at the default options and an environment
whose only failing step is the rename. -/
theorem spec_c1_rename_failure_cleanup_witness :
    (safeWrite (NewSafeWriteOption [])
        ⟨false, false, ['t'], false, false, false, false, false, false, true⟩ ['d'] []
      = ⟨some .renameFail, cleanupRuns (NewSafeWriteOption []) .renameFail, false⟩) ∧
    ((NewSafeWriteOption []).disableRemoveOnErr = false →
      ignoreMatched (NewSafeWriteOption []) .renameFail = false →
      (safeWrite (NewSafeWriteOption [])
          ⟨false, false, ['t'], false, false, false, false, false, false, true⟩
          ['d'] []).tmpRemoved = true) :=
  spec_c1_rename_failure_cleanup (NewSafeWriteOption [])
    ⟨false, false, ['t'], false, false, false, false, false, false, true⟩ ['d'] []
    (fun _ => rfl) rfl rfl rfl (fun _ => rfl) (fun h => absurd h (by decide))
    rfl (fun _ => rfl) rfl (fun _ => rfl) rfl

/-- C8: with a random pattern configured — free of path separators and
split here around its last `*` — if every attempt collides with an existing
entry, `openRandom` retries with a fresh random component up to the bounded
attempt count and then fails with the max-retry error; an attempt failing
for any other reason aborts immediately with that error; and a successful
attempt returns its name. -/
theorem spec_c8_open_random_retry (dir pattern pre suf : List Char)
    (openF : List Char → OpenRes) (randGen : Nat → List Char)
    (hsep : pattern.contains '/' = false)
    (hsplit : splitLastStar pattern = some (pre, suf)) :
    ((∀ k, openF (randName (dirOrTmp dir) pre suf (randGen k)) = .errExist) →
      openRandom dir pattern openF randGen = .error .maxRetry) ∧
    (∀ j, j < maxRetryAttempts →
      (∀ k, k < j → openF (randName (dirOrTmp dir) pre suf (randGen k)) = .errExist) →
      openF (randName (dirOrTmp dir) pre suf (randGen j)) = .errOther →
      openRandom dir pattern openF randGen = .error .errOther) ∧
    (∀ j, j < maxRetryAttempts →
      (∀ k, k < j → openF (randName (dirOrTmp dir) pre suf (randGen k)) = .errExist) →
      openF (randName (dirOrTmp dir) pre suf (randGen j)) = .ok →
      openRandom dir pattern openF randGen
        = .ok (randName (dirOrTmp dir) pre suf (randGen j))) := by
  have hopen : openRandom dir pattern openF randGen
      = openRandomLoop openF randGen (dirOrTmp dir) pre suf 0 maxRetryAttempts := by
    simp only [openRandom, hsep, hsplit]
    rfl
  refine ⟨?_, ?_, ?_⟩
  · intro hall
    rw [hopen]
    exact openRandomLoop_all_collide openF randGen (dirOrTmp dir) pre suf
      maxRetryAttempts 0 hall
  · intro j hj hcoll ho
    rw [hopen]
    refine openRandomLoop_stops openF randGen (dirOrTmp dir) pre suf
      maxRetryAttempts 0 j (.error .errOther) hj ?_ (Or.inl ⟨?_, rfl⟩)
    · intro k hk
      rw [Nat.zero_add]
      exact hcoll k hk
    · rwa [Nat.zero_add]
  · intro j hj hcoll ho
    rw [hopen]
    refine openRandomLoop_stops openF randGen (dirOrTmp dir) pre suf
      maxRetryAttempts 0 j _ hj ?_ (Or.inr ⟨?_, ?_⟩)
    · intro k hk
      rw [Nat.zero_add]
      exact hcoll k hk
    · rwa [Nat.zero_add]
    · rw [Nat.zero_add]

/-- Witness for C8 at the pattern `a*` in root: an always-colliding open
exhausts the retries into the max-retry error, and an open failing with a
non-collision error on its first attempt aborts with it immediately. -/
theorem spec_c8_open_random_retry_witness :
    openRandom [] ['a', '*'] (fun _ => .errExist) (fun _ => [])
        = .error .maxRetry ∧
    openRandom [] ['a', '*'] (fun _ => .errOther) (fun _ => [])
        = .error .errOther := by
  constructor
  · exact (spec_c8_open_random_retry [] ['a', '*'] ['a'] [] (fun _ => .errExist)
      (fun _ => []) (by decide) (by decide)).1 (fun k => rfl)
  · exact (spec_c8_open_random_retry [] ['a', '*'] ['a'] [] (fun _ => .errOther)
      (fun _ => []) (by decide) (by decide)).2.1 0 (by decide)
      (fun k hk => absurd hk (by omega)) rfl

/-- C10: `Apply` leaves every existing heap cell — in particular the
receiver's — unchanged, and returns a fresh pointer, distinct from the
receiver's, to a copy of the receiver with the option functions applied in
order; so a derived configuration never affects the base one. -/
theorem spec_c10_apply_clones_receiver (h : SWHeap) (p : Nat)
    (opts : List SafeWriteOptionOption) (hp : p < h.cells.length) :
    (Apply h p opts).1.cells.get? p = h.cells.get? p ∧
    (Apply h p opts).2 ≠ p ∧
    (Apply h p opts).1.cells.get? (Apply h p opts).2
      = some (opts.foldl applyOption (h.cells.getD p default)) := by
  refine ⟨?_, ?_, ?_⟩
  · show (h.cells ++ [opts.foldl applyOption (h.cells.getD p default)]).get? p
      = h.cells.get? p
    exact List.get?_append hp
  · show h.cells.length ≠ p
    omega
  · show (h.cells ++ [opts.foldl applyOption (h.cells.getD p default)]).get? h.cells.length
      = some (opts.foldl applyOption (h.cells.getD p default))
    exact List.get?_concat_length _ _

/-- Witness for C10 on a singleton heap: applying `WithForcePerm true`
through `Apply` leaves cell 0 holding the default options untouched and
returns a fresh cell holding the modified copy. -/
theorem spec_c10_apply_clones_receiver_witness :
    (Apply ⟨[NewSafeWriteOption []]⟩ 0 [.withForcePerm true]).1.cells.get? 0
        = (⟨[NewSafeWriteOption []]⟩ : SWHeap).cells.get? 0 ∧
    (Apply ⟨[NewSafeWriteOption []]⟩ 0 [.withForcePerm true]).2 ≠ 0 ∧
    (Apply ⟨[NewSafeWriteOption []]⟩ 0 [.withForcePerm true]).1.cells.get?
        (Apply ⟨[NewSafeWriteOption []]⟩ 0 [.withForcePerm true]).2
      = some ([SafeWriteOptionOption.withForcePerm true].foldl applyOption
          ((⟨[NewSafeWriteOption []]⟩ : SWHeap).cells.getD 0 default)) :=
  spec_c10_apply_clones_receiver ⟨[NewSafeWriteOption []]⟩ 0
    [.withForcePerm true] (by decide)

end fsutil

namespace storage

/-! ## `composeloader` storage: schema-pair validation and `prepare`

`validPrepareInput` inspects its two arguments through `reflect`; the model
captures the one level of reflective structure the function distinguishes:
a (possibly nil) value that is a struct of named fields, and a (possibly
nil) value that is a pointer to such a struct. -/

/-- The reflective field values `validPrepareInput` distinguishes: a string
field with its value, a field whose type implements `afero.Fs`, or any
other field type. -/
inductive FieldVal where
  | strField (s : List Char)
  | fsField
  | otherField
deriving DecidableEq

/-- The `dirSet` argument as `reflect.ValueOf` sees it. -/
inductive DirSetArg where
  | nilArg
  | structArg (fields : List (List Char × FieldVal))
  | nonStructArg
deriving DecidableEq

/-- The `dirHandle` argument as `reflect.ValueOf` sees it. -/
inductive DirHandleArg where
  | nilArg
  | ptrToStruct (fields : List (List Char × FieldVal))
  | nonPtrStruct
deriving DecidableEq

/-- The error cases of `err`/`prepare`; every constructor models an
`ErrInvalidInput`-wrapped (or step) error. -/
inductive PrepErr where
  | dirSetNotStruct
  | dirHandleNotPtrStruct
  | numFieldMismatch
  | handleFieldNotFs
  | dirSetFieldNotString
  | fieldNameMissing
  | emptyDir
  | notLocalDir
  | archiveNil
  | composeYmlEmpty
  | composeYmlNotLocal
  | prefixNotLocal
  | tempDirStatFail
  | tempDirNotDir
  | mkdirTempFail
  | copyArchiveFail
  | composeYmlStatFail
  | mkdirDirFail
  | copyContentsFail
deriving DecidableEq

/-- The loop over `dirHandle` fields: every field type must implement
`afero.Fs`, error on the first that does not. -/
def checkHandleFields : List (List Char × FieldVal) → Option PrepErr
  | [] => none
  | (_, v) :: rest =>
    if v ≠ .fsField then some .handleFieldNotFs else checkHandleFields rest

/-- The loop over `dirSet` fields: each must be a string field, named in
the handle field set, non-empty, and local; error on the first violation. -/
def checkSetFields (hNames : List (List Char)) :
    List (List Char × FieldVal) → Option PrepErr
  | [] => none
  | (name, v) :: rest =>
    match v with
    | .strField s =>
      if ¬ hNames.contains name then some .fieldNameMissing
      else if s = [] then some .emptyDir
      else if ¬ gopath.isLocalL s then some .notLocalDir
      else checkSetFields hNames rest
    | _ => some .dirSetFieldNotString

/-- `storage.validPrepareInput`. -/
def validPrepareInput (sRv : DirSetArg) (hRv : DirHandleArg) : Option PrepErr :=
  match sRv, hRv with
  | .nilArg, .nilArg => none
  | sRv, hRv =>
    match sRv with
    | .structArg sFields =>
      match hRv with
      | .ptrToStruct hFields =>
        if sFields.length ≠ hFields.length then some .numFieldMismatch
        else
          match checkHandleFields hFields with
          | some e => some e
          | none => checkSetFields (hFields.map Prod.fst) sFields
      | _ => some .dirHandleNotPtrStruct
    | _ => some .dirSetNotStruct

/-- `storage.ValidatePrepareInput`: the exported wrapper. -/
def ValidatePrepareInput (dirSet : DirSetArg) (dirHandle : DirHandleArg) :
    Option PrepErr :=
  validPrepareInput dirSet dirHandle

/-- `storage.isEmpty` (`s == "" || s == "."`). -/
def isEmpty (s : List Char) : Bool :=
  s = [] || s = ['.']

/-- `storage.ProjectDir`, with the `archive` field reduced to its
nil-check and `initialContents` to its presence. -/
structure ProjectDir where
  archivePresent : Bool
  pre : List Char
  composeYml : List Char
  tempDir : List Char
  dirSet : DirSetArg
  dirHandle : DirHandleArg
  hasInitialContents : Bool
  cleanTempDirOnError : Bool

/-- `ProjectDir.localize`: clean the three path fields. -/
def localize (d : ProjectDir) : ProjectDir :=
  { d with
    pre := gopath.cleanL d.pre
    composeYml := gopath.cleanL d.composeYml
    tempDir := gopath.cleanL d.tempDir }

/-- The filesystem operations `err`/`prepare` perform, in order. -/
inductive FsAction where
  | statTempDir (p : List Char)
  | mkdirTemp
  | copyArchive
  | statComposeYml
  | mkdirDirSet (p : List Char)
  | copyContents
deriving DecidableEq

/-- Outcomes of the filesystem operations `prepare` performs. -/
structure StorageEnv where
  tempDirStat : Option Bool
  mkdirTempFails : Bool
  mkdirTempName : List Char
  copyFails : Bool
  composeStatFails : Bool
  mkdirDirFails : List Char → Bool
  copyContentsFails : Bool

/-- `ProjectDir.err`: the validation run before anything is touched —
except the `os.Stat` of a configured non-empty `tempDir`, which is the one
filesystem operation the checks themselves perform. -/
def errCheck (d : ProjectDir) (env : StorageEnv) : Option PrepErr × List FsAction :=
  if d.archivePresent = false then (some .archiveNil, [])
  else if isEmpty d.composeYml then (some .composeYmlEmpty, [])
  else if ¬ gopath.isLocalL d.composeYml then (some .composeYmlNotLocal, [])
  else if ¬ isEmpty d.pre ∧ ¬ gopath.isLocalL d.pre then (some .prefixNotLocal, [])
  else if ¬ isEmpty d.tempDir then
    match env.tempDirStat with
    | none => (some .tempDirStatFail, [.statTempDir d.tempDir])
    | some false => (some .tempDirNotDir, [.statTempDir d.tempDir])
    | some true => (validPrepareInput d.dirSet d.dirHandle, [.statTempDir d.tempDir])
  else (validPrepareInput d.dirSet d.dirHandle, [])

/-- The `MkdirAll` loop of `prepare` over the `dirSet` fields. -/
def mkdirSetDirs (env : StorageEnv) :
    List (List Char × FieldVal) → List FsAction → Option PrepErr × List FsAction
  | [], tr => (none, tr)
  | (_, v) :: rest, tr =>
    let p := match v with | .strField s => gopath.cleanL s | _ => []
    if env.mkdirDirFails p then (some .mkdirDirFail, tr ++ [.mkdirDirSet p])
    else mkdirSetDirs env rest (tr ++ [.mkdirDirSet p])

/-- `ProjectDir.prepare`: validate through `err` first, then localize and
perform the filesystem phase — temp-dir creation when none is configured,
archive copy, compose-file stat, `dirSet` directory creation, and initial
contents copy. -/
def prepare (d0 : ProjectDir) (env : StorageEnv) : Option PrepErr × List FsAction :=
  match errCheck d0 env with
  | (some e, tr) => (some e, tr)
  | (none, tr0) =>
    let d := localize d0
    let step :=
      if isEmpty d.tempDir then
        if env.mkdirTempFails then (some PrepErr.mkdirTempFail, tr0 ++ [FsAction.mkdirTemp])
        else (none, tr0 ++ [FsAction.mkdirTemp])
      else (none, tr0)
    match step with
    | (some e, tr1) => (some e, tr1)
    | (none, tr1) =>
      let tr2 := tr1 ++ [FsAction.copyArchive]
      if env.copyFails then (some .copyArchiveFail, tr2)
      else
        let tr3 := tr2 ++ [FsAction.statComposeYml]
        if env.composeStatFails then (some .composeYmlStatFail, tr3)
        else
          let afterDirs :=
            match d.dirSet with
            | .structArg sFields => mkdirSetDirs env sFields tr3
            | _ => (none, tr3)
          match afterDirs with
          | (some e, tr4) => (some e, tr4)
          | (none, tr4) =>
            if d.hasInitialContents then
              if env.copyContentsFails then (some .copyContentsFail, tr4 ++ [.copyContents])
              else (none, tr4 ++ [.copyContents])
            else (none, tr4)

/-- `checkSetFields` passing means every `dirSet` field is a string field
whose name is in the handle set and whose value is non-empty and local. -/
theorem checkSetFields_none {hNames : List (List Char)}
    {fields : List (List Char × FieldVal)}
    (h : checkSetFields hNames fields = none) :
    ∀ nv, nv ∈ fields → ∃ s, nv.2 = FieldVal.strField s ∧
      hNames.contains nv.1 = true ∧ s ≠ [] ∧ gopath.isLocalL s = true := by
  induction fields with
  | nil => intro nv hnv; simp at hnv
  | cons f rest ih =>
    obtain ⟨name, v⟩ := f
    have hstep : ∃ s, v = FieldVal.strField s ∧ hNames.contains name = true ∧
        s ≠ [] ∧ gopath.isLocalL s = true ∧ checkSetFields hNames rest = none := by
      cases v with
      | strField s =>
        simp only [checkSetFields] at h
        by_cases h1 : hNames.contains name
        · rw [if_neg (by simpa using h1)] at h
          by_cases h2 : s = []
          · rw [if_pos h2] at h
            exact absurd h (by simp)
          · rw [if_neg h2] at h
            by_cases h3 : gopath.isLocalL s
            · rw [if_neg (by simpa using h3)] at h
              exact ⟨s, rfl, by simpa using h1, h2, by simpa using h3, h⟩
            · rw [if_pos (by simpa using h3)] at h
              exact absurd h (by simp)
        · rw [if_pos (by simpa using h1)] at h
          exact absurd h (by simp)
      | fsField =>
        simp only [checkSetFields] at h
        exact absurd h (by simp)
      | otherField =>
        simp only [checkSetFields] at h
        exact absurd h (by simp)
    obtain ⟨s, rfl, hc, hne, hl, hrest⟩ := hstep
    intro nv hnv
    rcases List.mem_cons.mp hnv with rfl | hnv
    · exact ⟨s, rfl, hc, hne, hl⟩
    · exact ih hrest nv hnv

/-- C7: schema-pair validation — `ValidatePrepareInput` directly, and
`prepare` before performing any filesystem operation — rejects with an
invalid-input error every path/handle schema pair whose field-name sets
differ (a different field count, or a path field named outside the handle
set), or whose path schema holds an empty path string or a non-local path
such as `../x` or `/x`. -/
theorem spec_c7_schema_validation (sFields hFields : List (List Char × FieldVal))
    (hbad : sFields.length ≠ hFields.length ∨
      (∃ nv, nv ∈ sFields ∧ nv.1 ∉ hFields.map Prod.fst) ∨
      (∃ n, (n, FieldVal.strField []) ∈ sFields) ∨
      (∃ n s, (n, FieldVal.strField s) ∈ sFields ∧ gopath.isLocalL s = false)) :
    (ValidatePrepareInput (.structArg sFields) (.ptrToStruct hFields)).isSome = true ∧
    (∀ (d : ProjectDir) (env : StorageEnv),
      d.dirSet = .structArg sFields → d.dirHandle = .ptrToStruct hFields →
      d.archivePresent = true →
      isEmpty d.composeYml = false → gopath.isLocalL d.composeYml = true →
      (isEmpty d.pre = false → gopath.isLocalL d.pre = true) →
      isEmpty d.tempDir = true →
      (prepare d env).1.isSome = true ∧ (prepare d env).2 = []) := by
  have hval : (validPrepareInput (DirSetArg.structArg sFields)
      (DirHandleArg.ptrToStruct hFields)).isSome = true := by
    by_contra hcon
    have hnone : validPrepareInput (DirSetArg.structArg sFields)
        (DirHandleArg.ptrToStruct hFields) = none := by
      cases hres : validPrepareInput (DirSetArg.structArg sFields)
          (DirHandleArg.ptrToStruct hFields)
      · rfl
      · rw [hres] at hcon
        simp at hcon
    simp only [validPrepareInput] at hnone
    by_cases hlen : sFields.length ≠ hFields.length
    · rw [if_pos hlen] at hnone
      exact absurd hnone (by simp)
    · rw [if_neg hlen] at hnone
      push_neg at hlen
      cases hch : checkHandleFields hFields with
      | some e =>
        rw [hch] at hnone
        exact absurd hnone (by simp)
      | none =>
        rw [hch] at hnone
        have hall := checkSetFields_none hnone
        rcases hbad with hb | ⟨nv, hmem, hnotin⟩ | ⟨n, hmem⟩ | ⟨n, s, hmem, hloc⟩
        · exact hb hlen
        · obtain ⟨s, -, hc, -, -⟩ := hall nv hmem
          exact hnotin (List.mem_of_elem_eq_true hc)
        · obtain ⟨s, hs, -, hne, -⟩ := hall (n, FieldVal.strField []) hmem
          have hs' : FieldVal.strField [] = FieldVal.strField s := hs
          injection hs' with hseq
          exact hne hseq.symm
        · obtain ⟨s', hs, -, -, hl⟩ := hall (n, FieldVal.strField s) hmem
          have hs' : FieldVal.strField s = FieldVal.strField s' := hs
          injection hs' with hseq
          rw [hseq, hl] at hloc
          simp at hloc
  refine ⟨hval, ?_⟩
  intro d env hds hdh harch hcy1 hcy2 hpre htd
  have hp : ¬ (¬ isEmpty d.pre = true ∧ ¬ gopath.isLocalL d.pre = true) := by
    cases hpe : isEmpty d.pre
    · simp [hpre hpe]
    · simp
  have herr : errCheck d env = (validPrepareInput d.dirSet d.dirHandle, []) := by
    simp only [errCheck, harch, hcy1, hcy2, htd]
    rw [if_neg (by simp), if_neg (by simp), if_neg (by simp), if_neg hp,
      if_neg (by simp)]
  obtain ⟨e, he⟩ : ∃ e, validPrepareInput d.dirSet d.dirHandle = some e := by
    rw [hds, hdh]
    exact Option.isSome_iff_exists.mp hval
  have hprep : prepare d env = (some e, []) := by
    simp only [prepare, herr, he]
  rw [hprep]
  exact ⟨rfl, rfl⟩

/-- Witness for C7: a 3-field path schema against a 2-field handle schema
is rejected; a 1-field schema pair with the absolute path `/f` is rejected;
and `prepare` on the mismatched pair — with a valid archive and compose
path and no configured temp dir — errors without one filesystem action. -/
theorem spec_c7_schema_validation_witness :
    (ValidatePrepareInput
      (.structArg [(['F', 'o', 'o'], .strField ['f']), (['B', 'a', 'r'], .strField ['b']),
        (['B', 'a', 'z'], .strField ['z'])])
      (.ptrToStruct [(['F', 'o', 'o'], .fsField), (['B', 'a', 'r'], .fsField)])).isSome
        = true ∧
    (ValidatePrepareInput
      (.structArg [(['F', 'o', 'o'], .strField ['/', 'f'])])
      (.ptrToStruct [(['F', 'o', 'o'], .fsField)])).isSome = true ∧
    ((prepare
        ⟨true, [], ['c'], [],
          .structArg [(['F', 'o', 'o'], .strField ['f']), (['B', 'a', 'r'], .strField ['b']),
            (['B', 'a', 'z'], .strField ['z'])],
          .ptrToStruct [(['F', 'o', 'o'], .fsField), (['B', 'a', 'r'], .fsField)],
          false, false⟩
        ⟨none, false, [], false, false, fun _ => false, false⟩).1.isSome = true ∧
      (prepare
        ⟨true, [], ['c'], [],
          .structArg [(['F', 'o', 'o'], .strField ['f']), (['B', 'a', 'r'], .strField ['b']),
            (['B', 'a', 'z'], .strField ['z'])],
          .ptrToStruct [(['F', 'o', 'o'], .fsField), (['B', 'a', 'r'], .fsField)],
          false, false⟩
        ⟨none, false, [], false, false, fun _ => false, false⟩).2 = []) := by
  refine ⟨?_, ?_, ?_⟩
  · exact (spec_c7_schema_validation
      [(['F', 'o', 'o'], .strField ['f']), (['B', 'a', 'r'], .strField ['b']),
        (['B', 'a', 'z'], .strField ['z'])]
      [(['F', 'o', 'o'], .fsField), (['B', 'a', 'r'], .fsField)]
      (Or.inl (by decide))).1
  · exact (spec_c7_schema_validation
      [(['F', 'o', 'o'], .strField ['/', 'f'])]
      [(['F', 'o', 'o'], .fsField)]
      (Or.inr (Or.inr (Or.inr ⟨['F', 'o', 'o'], ['/', 'f'], by decide, by decide⟩)))).1
  · exact (spec_c7_schema_validation
      [(['F', 'o', 'o'], .strField ['f']), (['B', 'a', 'r'], .strField ['b']),
        (['B', 'a', 'z'], .strField ['z'])]
      [(['F', 'o', 'o'], .fsField), (['B', 'a', 'r'], .fsField)]
      (Or.inl (by decide))).2
      ⟨true, [], ['c'], [],
        .structArg [(['F', 'o', 'o'], .strField ['f']), (['B', 'a', 'r'], .strField ['b']),
          (['B', 'a', 'z'], .strField ['z'])],
        .ptrToStruct [(['F', 'o', 'o'], .fsField), (['B', 'a', 'r'], .fsField)],
        false, false⟩
      ⟨none, false, [], false, false, fun _ => false, false⟩
      rfl rfl rfl (by decide) (by decide) (by decide) (by decide)

end storage

namespace fsutil

/-! ## A flat model of filesystem trees (`copy.go` / `Equal`)

A filesystem is the association list of its non-root entries, keyed by the
path as a list of name segments; the root is an implicit directory.
`fs.WalkDir` visits a tree in depth-first order with the children of every
directory in name order, which on a well-formed tree is exactly the
lexicographic order of the segment paths. -/

/-- The file type of a dirent: directory, regular file, or any other
(non-regular) file. -/
inductive NodeType where
  | dir
  | regular
  | nonreg
deriving DecidableEq

/-- One dirent: its permission bits and, for a regular file, its bytes. -/
inductive EntryNode where
  | dir (perm : Nat)
  | file (perm : Nat) (content : List Nat)
  | nonreg (perm : Nat)
deriving DecidableEq

/-- The `fs.FileMode` type bits of a node. -/
def nodeType : EntryNode → NodeType
  | .dir _ => .dir
  | .file _ _ => .regular
  | .nonreg _ => .nonreg

/-- The `fs.FileMode` permission bits of a node. -/
def nodePerm : EntryNode → Nat
  | .dir m => m
  | .file m _ => m
  | .nonreg m => m

/-- A slash-separated path, split into its name segments. -/
abbrev Path := List (List Char)

/-- A filesystem as the association list of its non-root entries. -/
structure FileSys where
  entries : List (Path × EntryNode)
deriving DecidableEq

/-- First-match association lookup (the unique match on a well-formed
filesystem). -/
def lookupEntries : List (Path × EntryNode) → Path → Option EntryNode
  | [], _ => none
  | (q, m) :: rest, p => if q = p then some m else lookupEntries rest p

/-- Strict lexicographic comparison of lists under a strict element
comparison. -/
def lexLt (lt : α → α → Bool) : List α → List α → Bool
  | [], [] => false
  | [], _ :: _ => true
  | _ :: _, [] => false
  | a :: as, b :: bs => if lt a b then true else if lt b a then false else lexLt lt as bs

theorem lexLt_asymm {α : Type} {lt : α → α → Bool}
    (hasymm : ∀ a b, lt a b = true → lt b a = false) :
    ∀ as bs, lexLt lt as bs = true → lexLt lt bs as = false := by
  intro as
  induction as with
  | nil =>
    intro bs h
    cases bs with
    | nil => exact absurd h (by simp [lexLt])
    | cons b bs => simp [lexLt]
  | cons a as ih =>
    intro bs h
    cases bs with
    | nil => exact absurd h (by simp [lexLt])
    | cons b bs =>
      simp only [lexLt] at h ⊢
      cases hab : lt a b
      · cases hba : lt b a
        · rw [hab, hba] at h
          simp only [Bool.false_eq_true, if_false] at h ⊢
          exact ih bs h
        · rw [hab, hba] at h
          simp at h
      · rw [hasymm a b hab]
        simp

theorem lexLt_connex {α : Type} {lt : α → α → Bool}
    (hconnex : ∀ a b, lt a b = false → lt b a = false → a = b) :
    ∀ as bs, lexLt lt as bs = false → lexLt lt bs as = false → as = bs := by
  intro as
  induction as with
  | nil =>
    intro bs h1 h2
    cases bs with
    | nil => rfl
    | cons b bs => simp [lexLt] at h1
  | cons a as ih =>
    intro bs h1 h2
    cases bs with
    | nil => simp [lexLt] at h2
    | cons b bs =>
      simp only [lexLt] at h1 h2
      cases hab : lt a b
      · cases hba : lt b a
        · rw [hab, hba] at h1 h2
          simp only [Bool.false_eq_true, if_false] at h1 h2
          have heq : a = b := hconnex a b hab hba
          subst heq
          rw [ih bs h1 h2]
        · rw [hab, hba] at h2
          simp at h2
      · rw [hab] at h1
        simp at h1

theorem lexLt_trans {α : Type} {lt : α → α → Bool}
    (hconnex : ∀ a b, lt a b = false → lt b a = false → a = b)
    (htrans : ∀ a b c, lt a b = true → lt b c = true → lt a c = true) :
    ∀ as bs cs, lexLt lt as bs = true → lexLt lt bs cs = true →
      lexLt lt as cs = true := by
  intro as
  induction as with
  | nil =>
    intro bs cs h1 h2
    cases bs with
    | nil => exact h2
    | cons b bs =>
      cases cs with
      | nil => simp [lexLt] at h2
      | cons c cs => simp [lexLt]
  | cons a as ih =>
    intro bs cs h1 h2
    cases bs with
    | nil => simp [lexLt] at h1
    | cons b bs =>
      cases cs with
      | nil => simp [lexLt] at h2
      | cons c cs =>
        simp only [lexLt] at h1 h2 ⊢
        cases hab : lt a b <;> cases hbc : lt b c
        · rw [hab] at h1
          rw [hbc] at h2
          simp only [Bool.false_eq_true, if_false] at h1 h2
          cases hba : lt b a
          · cases hcb : lt c b
            · rw [hba] at h1
              rw [hcb] at h2
              simp only [Bool.false_eq_true, if_false] at h1 h2
              have h3 : a = b := hconnex a b hab hba
              subst h3
              have h4 : a = c := hconnex a c hbc hcb
              subst h4
              rw [hba]
              simp only [Bool.false_eq_true, if_false]
              exact ih bs cs h1 h2
            · rw [hcb] at h2
              simp at h2
          · rw [hba] at h1
            simp at h1
        · cases hba : lt b a
          · have h3 : a = b := hconnex a b hab hba
            subst h3
            rw [hbc]
            simp
          · rw [hab, hba] at h1
            simp at h1
        · cases hcb : lt c b
          · have h4 : b = c := hconnex b c hbc hcb
            subst h4
            rw [hab]
            simp
          · rw [hbc, hcb] at h2
            simp at h2
        · rw [htrans a b c hab hbc]
          simp

/-- Strict order on characters as a Bool. -/
def charLt (a b : Char) : Bool := decide (a < b)

theorem charLt_asymm : ∀ a b, charLt a b = true → charLt b a = false := by
  intro a b h
  simp only [charLt, decide_eq_true_eq] at h
  simp only [charLt, decide_eq_false_iff_not]
  exact lt_asymm h

theorem charLt_connex : ∀ a b : Char, charLt a b = false → charLt b a = false → a = b := by
  intro a b h1 h2
  simp only [charLt, decide_eq_false_iff_not] at h1 h2
  exact le_antisymm (le_of_not_lt h2) (le_of_not_lt h1)

theorem charLt_trans : ∀ a b c : Char, charLt a b = true → charLt b c = true →
    charLt a c = true := by
  intro a b c h1 h2
  simp only [charLt, decide_eq_true_eq] at h1 h2 ⊢
  exact lt_trans h1 h2

/-- Lexicographic name (segment) comparison. -/
def segLt : List Char → List Char → Bool := lexLt charLt

/-- Lexicographic segment-path comparison. -/
def pathLt : Path → Path → Bool := lexLt segLt

theorem segLt_asymm : ∀ a b, segLt a b = true → segLt b a = false :=
  lexLt_asymm charLt_asymm

theorem segLt_connex : ∀ a b, segLt a b = false → segLt b a = false → a = b :=
  lexLt_connex charLt_connex

theorem segLt_trans : ∀ a b c, segLt a b = true → segLt b c = true → segLt a c = true :=
  lexLt_trans charLt_connex charLt_trans

theorem pathLt_asymm : ∀ a b, pathLt a b = true → pathLt b a = false :=
  lexLt_asymm segLt_asymm

theorem pathLt_connex : ∀ a b, pathLt a b = false → pathLt b a = false → a = b :=
  lexLt_connex segLt_connex

theorem pathLt_trans : ∀ a b c, pathLt a b = true → pathLt b c = true →
    pathLt a c = true :=
  lexLt_trans segLt_connex segLt_trans

/-- Name order (`a ≤ b` as not `b < a`). -/
def segLeP (a b : List Char) : Prop := segLt b a = false

/-- Path order. -/
def pathLeP (a b : Path) : Prop := pathLt b a = false

instance : DecidableRel segLeP :=
  fun a b => inferInstanceAs (Decidable (segLt b a = false))

instance : DecidableRel pathLeP :=
  fun a b => inferInstanceAs (Decidable (pathLt b a = false))

instance : IsTotal (List Char) segLeP := ⟨by
  intro a b
  cases h : segLt b a
  · exact Or.inl h
  · exact Or.inr (segLt_asymm b a h)⟩

instance : IsTrans (List Char) segLeP := ⟨by
  intro a b c h1 h2
  have h1' : segLt b a = false := h1
  have h2' : segLt c b = false := h2
  show segLt c a = false
  cases h3 : segLt c a
  · rfl
  · cases hab : segLt a b
    · have heq := segLt_connex a b hab h1'
      subst heq
      rw [h3] at h2'
      exact h2'
    · have h4 := segLt_trans c a b h3 hab
      rw [h4] at h2'
      exact h2'⟩

instance : IsAntisymm (List Char) segLeP := ⟨by
  intro a b h1 h2
  exact segLt_connex a b h2 h1⟩

instance : IsTotal Path pathLeP := ⟨by
  intro a b
  cases h : pathLt b a
  · exact Or.inl h
  · exact Or.inr (pathLt_asymm b a h)⟩

instance : IsTrans Path pathLeP := ⟨by
  intro a b c h1 h2
  have h1' : pathLt b a = false := h1
  have h2' : pathLt c b = false := h2
  show pathLt c a = false
  cases h3 : pathLt c a
  · rfl
  · cases hab : pathLt a b
    · have heq := pathLt_connex a b hab h1'
      subst heq
      rw [h3] at h2'
      exact h2'
    · have h4 := pathLt_trans c a b h3 hab
      rw [h4] at h2'
      exact h2'⟩

instance : IsAntisymm Path pathLeP := ⟨by
  intro a b h1 h2
  exact pathLt_connex a b h2 h1⟩

/-- `some n` when `q = p ++ [n]`: the name under which `q` appears in the
directory `p`. -/
def asChild : Path → Path → Option (List Char)
  | [], [n] => some n
  | [], [] => none
  | [], _ :: _ :: _ => none
  | _ :: _, [] => none
  | a :: p, b :: q => if a = b then asChild p q else none

/-- `fs.ReadDir`: the names of the entries of directory `p`, sorted. -/
def childNames (fs : FileSys) (p : Path) : List (List Char) :=
  List.insertionSort segLeP (fs.entries.filterMap (fun e => asChild p e.1))

/-- The order `fs.WalkDir` visits a well-formed tree: the root first, then
every entry in lexicographic path order (depth-first, children in name
order). -/
def walkPaths (fs : FileSys) : List Path :=
  [] :: List.insertionSort pathLeP (fs.entries.map Prod.fst)

/-- The slash-joined path (the text handed to `chmodIf`). -/
def joinSegs : Path → List Char
  | [] => ['.']
  | [s] => s
  | s :: rest => s ++ '/' :: joinSegs rest

/-! ### `Equal` (from `copy_test.go`) -/

/-- `fsutil.EqualReason`. -/
inductive EqualReason where
  | modeMismatch
  | fileContentMismatch
  | dirContentMismatch
deriving DecidableEq

/-- The `DstVal`/`SrcVal` payload of a report. -/
inductive EqualVal where
  | vNone
  | vMode (t : NodeType) (perm : Nat)
  | vNames (names : List (List Char))
deriving DecidableEq

/-- `fsutil.EqualReport`. -/
structure EqualReport where
  reason : EqualReason
  path : Path
  dstVal : EqualVal
  srcVal : EqualVal
deriving DecidableEq

/-- `fsutil.sameMode` as the optional report it produces: type bits first;
an overriding `chmodIf` compares against the override; otherwise the full
modes are compared unless `noChmod`. -/
def sameMode (dstN srcN : EntryNode) (p : Path) (opt : copyFsOption) :
    Option EqualReport :=
  if nodeType dstN ≠ nodeType srcN then
    some ⟨.modeMismatch, p, .vMode (nodeType dstN) (nodePerm dstN),
      .vMode (nodeType srcN) (nodePerm srcN)⟩
  else
    match opt.chmodIf with
    | some f =>
      match f (joinSegs p) with
      | some ov =>
        if nodePerm dstN ≠ ov then
          some ⟨.modeMismatch, p, .vMode (nodeType dstN) (nodePerm dstN),
            .vMode (nodeType srcN) ov⟩
        else none
      | none =>
        if ¬ opt.noChmod ∧ nodePerm dstN ≠ nodePerm srcN then
          some ⟨.modeMismatch, p, .vMode (nodeType dstN) (nodePerm dstN),
            .vMode (nodeType srcN) (nodePerm srcN)⟩
        else none
    | none =>
      if ¬ opt.noChmod ∧ nodePerm dstN ≠ nodePerm srcN then
        some ⟨.modeMismatch, p, .vMode (nodeType dstN) (nodePerm dstN),
          .vMode (nodeType srcN) (nodePerm srcN)⟩
      else none

/-- The reports `Equal`'s walk callback gathers at one non-root path of
`dst`: nothing when opening the path in `src` reports not-exist (the error
is swallowed); otherwise the mode comparison, then — only for equal type
bits — the sorted dirent names of a directory or the bytes of a regular
file. -/
def equalAt (dst src : FileSys) (opt : copyFsOption) (p : Path) :
    List EqualReport :=
  match lookupEntries dst.entries p, lookupEntries src.entries p with
  | some dstN, some srcN =>
    (sameMode dstN srcN p opt).toList ++
      (if nodeType dstN ≠ nodeType srcN then []
       else
        match dstN, srcN with
        | .dir _, _ =>
          if childNames dst p ≠ childNames src p then
            [⟨.dirContentMismatch, p, .vNames (childNames dst p),
              .vNames (childNames src p)⟩]
          else []
        | .file _ c1, .file _ c2 =>
          if c1 ≠ c2 then [⟨.fileContentMismatch, p, .vNone, .vNone⟩] else []
        | _, _ => [])
  | _, _ => []

/-- The walk callback at the root: no mode comparison, only the dirent
names of the two roots. -/
def rootReports (dst src : FileSys) : List EqualReport :=
  if childNames dst [] ≠ childNames src [] then
    [⟨.dirContentMismatch, [], .vNames (childNames dst []),
      .vNames (childNames src [])⟩]
  else []

/-- The `fs.WalkDir` loop of `Equal` over the given paths of `dst`: a
non-regular `dst` entry aborts the walk (or is skipped under the ignore
option); every other path appends its reports. -/
def equalWalk (dst src : FileSys) (opt : copyFsOption) :
    List Path → Except Unit (List EqualReport)
  | [] => .ok []
  | p :: rest =>
    match p with
    | [] =>
      match equalWalk dst src opt rest with
      | .error e => .error e
      | .ok reps => .ok (rootReports dst src ++ reps)
    | _ :: _ =>
      match lookupEntries dst.entries p with
      | none => equalWalk dst src opt rest
      | some dstN =>
        if nodeType dstN = .nonreg then
          match opt.handleNonRegularFile with
          | .err => .error ()
          | .ignore => equalWalk dst src opt rest
        else
          match equalWalk dst src opt rest with
          | .error e => .error e
          | .ok reps => .ok (equalAt dst src opt p ++ reps)

/-- `fsutil.Equal`. -/
def Equal (dst src : FileSys) (opts : List CopyFsOption) :
    Except Unit (List EqualReport) :=
  equalWalk dst src (newCopyFsOption opts) (walkPaths dst)

/-! ### `CopyFS` (from `copy.go`) -/

/-- Replace the entry at `p`, or append one. -/
def setEntry : List (Path × EntryNode) → Path → EntryNode →
    List (Path × EntryNode)
  | [], p, n => [(p, n)]
  | (q, m) :: rest, p, n =>
    if q = p then (p, n) :: rest else (q, m) :: setEntry rest p n

/-- Write the node at `p` into the filesystem. -/
def insertEntry (fs : FileSys) (p : Path) (n : EntryNode) : FileSys :=
  ⟨setEntry fs.entries p n⟩

/-- The permission the `chmod` closure of `copyPath` leaves on a created
entry: an overriding `chmodIf` wins; otherwise the source permission,
unless `noChmod` keeps the creation permission. -/
def chmodPerm (opt : copyFsOption) (p : Path) (srcPerm createdPerm : Nat) : Nat :=
  match opt.chmodIf with
  | some f =>
    match f (joinSegs p) with
    | some ov => ov
    | none => if !opt.noChmod then srcPerm else createdPerm
  | none => if !opt.noChmod then srcPerm else createdPerm

/-- Errors of `CopyFS`. -/
inductive CopyErr where
  | cancelled
  | badInput
  | openFail
deriving DecidableEq

/-- `fsutil.copyPath`: open the source path; a directory is made (with
`fs.ModePerm`) and chmodded, a regular file is created (with `fs.ModePerm`),
chmodded and filled with the source bytes, a non-regular file is an error
or skipped per the option. -/
def copyPath (dst src : FileSys) (p : Path) (opt : copyFsOption) :
    Except CopyErr FileSys :=
  match lookupEntries src.entries p with
  | none => .error .openFail
  | some (.dir m) => .ok (insertEntry dst p (.dir (chmodPerm opt p m 511)))
  | some (.file m c) => .ok (insertEntry dst p (.file (chmodPerm opt p m 511) c))
  | some (.nonreg _) =>
    match opt.handleNonRegularFile with
    | .err => .error .badInput
    | .ignore => .ok dst

/-- `copyFsOption.isCancelled`. -/
def isCancelled (opt : copyFsOption) : Bool :=
  match opt.ctx with
  | some c => c
  | none => false

/-- The `fs.WalkDir` loop of `CopyFS` over the non-root paths of `src`. -/
def copyWalk (src : FileSys) (opt : copyFsOption) :
    FileSys → List Path → Except CopyErr FileSys
  | dst, [] => .ok dst
  | dst, p :: rest =>
    if isCancelled opt then .error .cancelled
    else
      match copyPath dst src p opt with
      | .error e => .error e
      | .ok dst' => copyWalk src opt dst' rest

/-- `fsutil.CopyFS`. -/
def CopyFS (dst src : FileSys) (opts : List CopyFsOption) :
    Except CopyErr FileSys :=
  copyWalk src (newCopyFsOption opts) dst (walkPaths src).tail

instance {ε α : Type} [DecidableEq ε] [DecidableEq α] : DecidableEq (Except ε α) :=
  fun x y =>
    match x, y with
    | .ok a, .ok b => decidable_of_iff (a = b) (by rw [Except.ok.injEq])
    | .error e, .error f => decidable_of_iff (e = f) (by rw [Except.error.injEq])
    | .ok _, .error _ => isFalse (fun h => Except.noConfusion h)
    | .error _, .ok _ => isFalse (fun h => Except.noConfusion h)

example :
    Equal
      ⟨[([['p']], EntryNode.dir 7), ([['p'], ['c']], EntryNode.file 7 [])]⟩
      ⟨[([['p']], EntryNode.file 7 [])]⟩ []
      = .ok [⟨.modeMismatch, [['p']], .vMode .dir 7, .vMode .regular 7⟩] := by decide

example :
    CopyFS ⟨[]⟩ ⟨[([['a']], EntryNode.dir 5), ([['a'], ['b']], EntryNode.file 6 [1, 2])]⟩ []
      = .ok ⟨[([['a']], EntryNode.dir 5), ([['a'], ['b']], EntryNode.file 6 [1, 2])]⟩ := by decide

example :
    (CopyFS ⟨[]⟩ ⟨[([['a']], EntryNode.dir 5), ([['a'], ['b']], EntryNode.file 6 [1, 2])]⟩ []).map
      (fun d => Equal d ⟨[([['a']], EntryNode.dir 5), ([['a'], ['b']], EntryNode.file 6 [1, 2])]⟩ [])
      = .ok (.ok []) := by decide

/-! ### Lemmas on the flat filesystem -/

theorem lookupEntries_none_iff (l : List (Path × EntryNode)) (p : Path) :
    lookupEntries l p = none ↔ p ∉ l.map Prod.fst := by
  induction l with
  | nil => simp [lookupEntries]
  | cons e rest ih =>
    obtain ⟨q, m⟩ := e
    simp only [lookupEntries, List.map_cons, List.mem_cons]
    by_cases hq : q = p
    · subst hq
      rw [if_pos rfl]
      constructor
      · intro h
        exact absurd h (by simp)
      · intro h
        exact absurd (Or.inl rfl) h
    · rw [if_neg hq, ih]
      constructor
      · intro h hc
        rcases hc with hc | hc
        · exact hq hc.symm
        · exact h hc
      · intro h
        exact fun hc => h (Or.inr hc)

theorem lookupEntries_mem {l : List (Path × EntryNode)} {p : Path} {n : EntryNode}
    (h : lookupEntries l p = some n) : (p, n) ∈ l := by
  induction l with
  | nil => exact absurd h (by simp [lookupEntries])
  | cons e rest ih =>
    obtain ⟨q, m⟩ := e
    simp only [lookupEntries] at h
    by_cases hq : q = p
    · subst hq
      rw [if_pos rfl] at h
      injection h with h2
      subst h2
      exact List.mem_cons_self _ _
    · rw [if_neg hq] at h
      exact List.mem_cons_of_mem _ (ih h)

theorem lookupEntries_isSome_of_mem {l : List (Path × EntryNode)} {p : Path}
    (h : p ∈ l.map Prod.fst) : ∃ n, lookupEntries l p = some n := by
  cases hl : lookupEntries l p with
  | none => exact absurd h ((lookupEntries_none_iff l p).mp hl)
  | some n => exact ⟨n, rfl⟩

theorem setEntry_of_none {l : List (Path × EntryNode)} {p : Path}
    (h : lookupEntries l p = none) (n : EntryNode) :
    setEntry l p n = l ++ [(p, n)] := by
  induction l with
  | nil => rfl
  | cons e rest ih =>
    obtain ⟨q, m⟩ := e
    simp only [lookupEntries] at h
    by_cases hq : q = p
    · rw [if_pos hq] at h
      exact absurd h (by simp)
    · rw [if_neg hq] at h
      simp only [setEntry, if_neg hq, List.cons_append, ih h]

theorem lookupEntries_append (a b : List (Path × EntryNode)) (p : Path) :
    lookupEntries (a ++ b) p =
      match lookupEntries a p with
      | some n => some n
      | none => lookupEntries b p := by
  induction a with
  | nil => rfl
  | cons e rest ih =>
    obtain ⟨q, m⟩ := e
    simp only [List.cons_append, lookupEntries, List.append_eq]
    by_cases hq : q = p
    · rw [if_pos hq, if_pos hq]
    · rw [if_neg hq, if_neg hq, ih]

theorem lookup_map_self (f : Path → EntryNode) (ps : List Path) (p : Path) :
    lookupEntries (ps.map (fun q => (q, f q))) p
      = if p ∈ ps then some (f p) else none := by
  induction ps with
  | nil => simp [lookupEntries]
  | cons q rest ih =>
    simp only [List.map_cons, lookupEntries]
    by_cases hq : q = p
    · subst hq
      rw [if_pos rfl, if_pos (List.mem_cons_self _ _)]
    · rw [if_neg hq, ih]
      by_cases hp : p ∈ rest
      · rw [if_pos hp, if_pos (List.mem_cons_of_mem _ hp)]
      · rw [if_neg hp, if_neg (by
          intro hc
          rcases List.mem_cons.mp hc with hc | hc
          · exact hq hc.symm
          · exact hp hc)]

theorem asChild_append_self (p : Path) (n : List Char) :
    asChild p (p ++ [n]) = some n := by
  induction p with
  | nil => rfl
  | cons a p ih =>
    simp only [List.cons_append, List.append_eq, asChild]
    rw [if_pos trivial]
    exact ih

theorem asChild_eq_some {p q : Path} {n : List Char}
    (h : asChild p q = some n) : q = p ++ [n] := by
  induction p generalizing q with
  | nil =>
    match q with
    | [m] =>
      simp only [asChild] at h
      injection h with h
      rw [h]
      rfl
    | [] => simp [asChild] at h
    | _ :: _ :: _ => simp [asChild] at h
  | cons a p ih =>
    match q with
    | [] => simp [asChild] at h
    | b :: q =>
      simp only [asChild] at h
      by_cases hab : a = b
      · subst hab
        rw [if_pos rfl] at h
        rw [List.cons_append, ih h]
      · rw [if_neg hab] at h
        exact absurd h (by simp)

/-- Sorting with `segLeP` maps permutations to equality. -/
theorem sortSegs_eq_of_perm {l1 l2 : List (List Char)} (h : l1.Perm l2) :
    List.insertionSort segLeP l1 = List.insertionSort segLeP l2 :=
  List.eq_of_perm_of_sorted
    ((List.perm_insertionSort _ _).trans (h.trans (List.perm_insertionSort _ _).symm))
    (List.sorted_insertionSort _ _) (List.sorted_insertionSort _ _)

/-- Sorting with `pathLeP` maps permutations to equality. -/
theorem sortPaths_eq_of_perm {l1 l2 : List Path} (h : l1.Perm l2) :
    List.insertionSort pathLeP l1 = List.insertionSort pathLeP l2 :=
  List.eq_of_perm_of_sorted
    ((List.perm_insertionSort _ _).trans (h.trans (List.perm_insertionSort _ _).symm))
    (List.sorted_insertionSort _ _) (List.sorted_insertionSort _ _)

/-- Sorting a sorted list is the identity. -/
theorem sortPaths_idem (l : List Path) :
    List.insertionSort pathLeP (List.insertionSort pathLeP l)
      = List.insertionSort pathLeP l :=
  List.eq_of_perm_of_sorted (List.perm_insertionSort _ _)
    (List.sorted_insertionSort _ _) (List.sorted_insertionSort _ _)

/-- `childNames` of a filesystem whose entries are a path list tagged by a
node function. -/
theorem childNames_map_self (f : Path → EntryNode) (ps : List Path) (p : Path) :
    childNames ⟨ps.map (fun q => (q, f q))⟩ p
      = List.insertionSort segLeP (ps.filterMap (asChild p)) := by
  unfold childNames
  rw [List.filterMap_map]
  rfl

/-- `childNames` only reads the paths of the entries. -/
theorem childNames_eq_filterMap (fs : FileSys) (p : Path) :
    childNames fs p
      = List.insertionSort segLeP ((fs.entries.map Prod.fst).filterMap (asChild p)) := by
  unfold childNames
  rw [List.filterMap_map]
  rfl

/-- The node `copyPath` produces at `p` with the default options: the
source node itself. -/
def copyNodeOf (src : FileSys) (p : Path) : EntryNode :=
  match lookupEntries src.entries p with
  | some n => n
  | none => .dir 0

/-- Whether the filesystem holds a directory at `p`. -/
def isDirAt (fs : FileSys) (p : Path) : Bool :=
  match lookupEntries fs.entries p with
  | some (.dir _) => true
  | _ => false

/-- Walking duplicate-free source paths over `copyPath` with the default
options appends each source entry verbatim to the destination. -/
theorem copyWalk_exact (src : FileSys) :
    ∀ (ps : List Path) (acc : List (Path × EntryNode)),
      (∀ p ∈ ps, ∃ n, lookupEntries src.entries p = some n ∧ nodeType n ≠ .nonreg) →
      (∀ p ∈ ps, lookupEntries acc p = none) →
      ps.Nodup →
      copyWalk src (newCopyFsOption []) ⟨acc⟩ ps
        = .ok ⟨acc ++ ps.map (fun p => (p, copyNodeOf src p))⟩ := by
  intro ps
  induction ps with
  | nil =>
    intro acc _ _ _
    simp [copyWalk]
  | cons p rest ih =>
    intro acc hsrc hacc hnd
    obtain ⟨n, hn, hnr⟩ := hsrc p (List.mem_cons_self _ _)
    have hnode : copyNodeOf src p = n := by
      unfold copyNodeOf
      rw [hn]
    have hcp : copyPath ⟨acc⟩ src p (newCopyFsOption [])
        = .ok ⟨acc ++ [(p, n)]⟩ := by
      cases n with
      | dir m =>
        simp only [copyPath, hn]
        rw [show chmodPerm (newCopyFsOption []) p m 511 = m from rfl]
        rw [show insertEntry ⟨acc⟩ p (.dir m)
            = (⟨setEntry acc p (.dir m)⟩ : FileSys) from rfl]
        rw [setEntry_of_none (hacc p (List.mem_cons_self _ _))]
      | file m c =>
        simp only [copyPath, hn]
        rw [show chmodPerm (newCopyFsOption []) p m 511 = m from rfl]
        rw [show insertEntry ⟨acc⟩ p (.file m c)
            = (⟨setEntry acc p (.file m c)⟩ : FileSys) from rfl]
        rw [setEntry_of_none (hacc p (List.mem_cons_self _ _))]
      | nonreg m => exact absurd rfl hnr
    have hnotmem : p ∉ rest := (List.nodup_cons.mp hnd).1
    have hrec := ih (acc ++ [(p, n)])
      (fun q hq => hsrc q (List.mem_cons_of_mem _ hq))
      (fun q hq => by
        rw [lookupEntries_append]
        rw [hacc q (List.mem_cons_of_mem _ hq)]
        show lookupEntries [(p, n)] q = none
        unfold lookupEntries
        rw [if_neg (fun hc => hnotmem (by rw [hc]; exact hq))]
        rfl)
      (List.nodup_cons.mp hnd).2
    simp only [copyWalk, hcp]
    rw [show isCancelled (newCopyFsOption []) = false from rfl]
    simp only [Bool.false_eq_true, if_false]
    rw [hrec]
    rw [List.map_cons, hnode]
    rw [List.append_assoc]
    rfl

/-- `CopyFS` with default options into an empty destination: all source
entries, in walk order. -/
theorem copyFS_exact (src : FileSys)
    (hnodup : (src.entries.map Prod.fst).Nodup)
    (hkinds : ∀ e ∈ src.entries, nodeType e.2 ≠ NodeType.nonreg) :
    CopyFS ⟨[]⟩ src []
      = .ok ⟨(List.insertionSort pathLeP (src.entries.map Prod.fst)).map
          (fun p => (p, copyNodeOf src p))⟩ := by
  unfold CopyFS
  have hsrc : ∀ p ∈ List.insertionSort pathLeP (src.entries.map Prod.fst),
      ∃ n, lookupEntries src.entries p = some n ∧ nodeType n ≠ .nonreg := by
    intro p hp
    have hp' : p ∈ src.entries.map Prod.fst := by
      rw [← List.mem_insertionSort pathLeP]
      exact hp
    obtain ⟨n, hn⟩ := lookupEntries_isSome_of_mem hp'
    exact ⟨n, hn, hkinds (p, n) (lookupEntries_mem hn)⟩
  have hnd : (List.insertionSort pathLeP (src.entries.map Prod.fst)).Nodup :=
    ((List.perm_insertionSort pathLeP _).nodup_iff).mpr hnodup
  rw [show (walkPaths src).tail
      = List.insertionSort pathLeP (src.entries.map Prod.fst) from rfl]
  rw [copyWalk_exact src _ [] hsrc (fun p _ => rfl) hnd]
  rfl

/-- Lookups in the copied filesystem agree with the source everywhere. -/
theorem lookup_copy (src : FileSys) (p : Path) :
    lookupEntries ((List.insertionSort pathLeP (src.entries.map Prod.fst)).map
        (fun q => (q, copyNodeOf src q))) p
      = lookupEntries src.entries p := by
  rw [lookup_map_self]
  by_cases hp : p ∈ List.insertionSort pathLeP (src.entries.map Prod.fst)
  · rw [if_pos hp]
    have hp' : p ∈ src.entries.map Prod.fst := by
      rw [← List.mem_insertionSort pathLeP]
      exact hp
    obtain ⟨n, hn⟩ := lookupEntries_isSome_of_mem hp'
    rw [hn]
    unfold copyNodeOf
    rw [hn]
  · rw [if_neg hp]
    have hp' : p ∉ src.entries.map Prod.fst := by
      rw [← List.mem_insertionSort pathLeP]
      exact hp
    exact ((lookupEntries_none_iff _ _).mpr hp').symm

/-- Dirent names in the copied filesystem agree with the source. -/
theorem childNames_copy (src : FileSys) (p : Path) :
    childNames ⟨(List.insertionSort pathLeP (src.entries.map Prod.fst)).map
        (fun q => (q, copyNodeOf src q))⟩ p
      = childNames src p := by
  rw [childNames_map_self, childNames_eq_filterMap]
  exact sortSegs_eq_of_perm ((List.perm_insertionSort pathLeP _).filterMap _)

/-- The copied filesystem walks in the same order as the source. -/
theorem walkPaths_copy (src : FileSys) :
    walkPaths ⟨(List.insertionSort pathLeP (src.entries.map Prod.fst)).map
        (fun q => (q, copyNodeOf src q))⟩
      = walkPaths src := by
  unfold walkPaths
  congr 1
  rw [List.map_map]
  rw [show (Prod.fst ∘ fun q => (q, copyNodeOf src q)) = id from rfl, List.map_id]
  exact sortPaths_idem _

/-- `equalAt` yields no report at a path where both filesystems hold the
same node and the same dirent names (default options). -/
theorem equalAt_nil_of_eq {dst src : FileSys} (p : Path)
    (hd : lookupEntries dst.entries p = lookupEntries src.entries p)
    (hnames : childNames dst p = childNames src p) :
    equalAt dst src (newCopyFsOption []) p = [] := by
  unfold equalAt
  cases hl : lookupEntries src.entries p with
  | none =>
    rw [hd, hl]
  | some n =>
    have hsm : sameMode n n p (newCopyFsOption []) = none := by
      unfold sameMode
      rw [if_neg (by simp)]
      rw [show (newCopyFsOption []).chmodIf = none from rfl]
      rw [if_neg (by
        rintro ⟨-, hc⟩
        exact hc rfl)]
    cases n with
    | dir m => simp [hd, hl, hsm, hnames, Option.toList]
    | file m c => simp [hd, hl, hsm, Option.toList]
    | nonreg m => simp [hd, hl, hsm, Option.toList]

/-- The `Equal` walk over any path list yields an empty report when the two
filesystems agree on nodes and dirent names and `dst` holds no non-regular
entries. -/
theorem equalWalk_ok_nil {dst src : FileSys}
    (hd : ∀ p, lookupEntries dst.entries p = lookupEntries src.entries p)
    (hnames : ∀ p, childNames dst p = childNames src p)
    (hkinds : ∀ p n, lookupEntries dst.entries p = some n → nodeType n ≠ .nonreg) :
    ∀ ps, equalWalk dst src (newCopyFsOption []) ps = .ok [] := by
  intro ps
  induction ps with
  | nil => rfl
  | cons p rest ih =>
    cases p with
    | nil =>
      have hroot : rootReports dst src = [] := by
        unfold rootReports
        rw [hnames]
        rw [if_neg (fun hc => hc rfl)]
      simp only [equalWalk, ih, hroot]
      rfl
    | cons q qs =>
      cases hl : lookupEntries dst.entries (q :: qs) with
      | none => simp only [equalWalk, hl, ih]
      | some dstN =>
        have hnr := hkinds _ _ hl
        simp only [equalWalk, hl, ih]
        rw [if_neg hnr]
        rw [equalAt_nil_of_eq (q :: qs) (hd _) (hnames _)]
        rfl

/-- C4: for every tree holding only directories and regular files —
duplicate-free paths, every non-root entry below the root or a directory —
copying it with `CopyFS` into a fresh empty destination and then running
`Equal` of the destination against it yields an empty mismatch report. -/
theorem spec_c4_copyfs_equal_roundtrip (src : FileSys)
    (hnodup : (src.entries.map Prod.fst).Nodup)
    (hkinds : ∀ e ∈ src.entries, nodeType e.2 ≠ NodeType.nonreg)
    (hroot : ∀ e ∈ src.entries, e.1 ≠ [])
    (hparents : ∀ e ∈ src.entries,
      e.1.dropLast = [] ∨ isDirAt src e.1.dropLast = true) :
    ∃ dstF, CopyFS ⟨[]⟩ src [] = .ok dstF ∧ Equal dstF src [] = .ok [] := by
  refine ⟨_, copyFS_exact src hnodup hkinds, ?_⟩
  unfold Equal
  rw [show newCopyFsOption [] = newCopyFsOption [] from rfl]
  rw [walkPaths_copy src]
  refine equalWalk_ok_nil ?_ ?_ ?_ (walkPaths src)
  · intro p
    exact lookup_copy src p
  · intro p
    exact childNames_copy src p
  · intro p n hl
    rw [lookup_copy src p] at hl
    exact hkinds (p, n) (lookupEntries_mem hl)

/-- Witness for C4 on the tree with directory `a` holding file `a/b`. -/
theorem spec_c4_copyfs_equal_roundtrip_witness :
    ∃ dstF, CopyFS ⟨[]⟩
        ⟨[([['a']], EntryNode.dir 5), ([['a'], ['b']], EntryNode.file 6 [1, 2])]⟩ []
        = .ok dstF ∧
      Equal dstF
        ⟨[([['a']], EntryNode.dir 5), ([['a'], ['b']], EntryNode.file 6 [1, 2])]⟩ []
        = .ok [] :=
  spec_c4_copyfs_equal_roundtrip
    ⟨[([['a']], EntryNode.dir 5), ([['a'], ['b']], EntryNode.file 6 [1, 2])]⟩
    (by decide) (by decide) (by decide) (by decide)

/-- The `Equal` walk never aborts and accumulates every path's reports when
`dst` holds no non-regular entry. -/
theorem equalWalk_flatten (dst src : FileSys) (opt : copyFsOption)
    (hnr : ∀ p n, lookupEntries dst.entries p = some n → nodeType n ≠ .nonreg) :
    ∀ ps, equalWalk dst src opt ps
      = .ok ((ps.map (fun p =>
          if p = [] then rootReports dst src else equalAt dst src opt p)).flatten) := by
  intro ps
  induction ps with
  | nil => rfl
  | cons p rest ih =>
    cases p with
    | nil =>
      simp only [equalWalk, ih, List.map_cons, List.flatten_cons]
      rw [if_pos trivial]
    | cons q qs =>
      simp only [List.map_cons, List.flatten_cons]
      rw [if_neg (by simp)]
      cases hl : lookupEntries dst.entries (q :: qs) with
      | none =>
        simp only [equalWalk, hl, ih]
        have hat : equalAt dst src opt (q :: qs) = [] := by
          unfold equalAt
          rw [hl]
        rw [hat]
        rw [List.nil_append]
      | some dstN =>
        have hnreg := hnr _ _ hl
        simp only [equalWalk, hl, ih]
        rw [if_neg hnreg]

/-- A path that opening in `src` reports as missing contributes no report
at all. -/
theorem equalAt_src_missing (dst src : FileSys) (opt : copyFsOption) (p : Path)
    (h : lookupEntries src.entries p = none) :
    equalAt dst src opt p = [] := by
  unfold equalAt
  rw [h]
  cases lookupEntries dst.entries p <;> rfl

/-- A name present under `p` in `dst`. -/
theorem mem_childNames_of_entry {fs : FileSys} {p : Path} {n : List Char}
    (h : (p ++ [n]) ∈ fs.entries.map Prod.fst) : n ∈ childNames fs p := by
  rw [childNames_eq_filterMap, List.mem_insertionSort]
  exact List.mem_filterMap.mpr ⟨p ++ [n], h, asChild_append_self p n⟩

/-- A name absent under `p` in `fs` when the path is absent. -/
theorem not_mem_childNames {fs : FileSys} {p : Path} {n : List Char}
    (h : lookupEntries fs.entries (p ++ [n]) = none) : n ∉ childNames fs p := by
  rw [childNames_eq_filterMap, List.mem_insertionSort]
  intro hc
  obtain ⟨q, hq, hac⟩ := List.mem_filterMap.mp hc
  rw [asChild_eq_some hac] at hq
  exact (lookupEntries_none_iff _ _).mp h hq

/-- C6 counterexample: in `dst` the directory `p` holds the child file
`p/c`; in `src` the path `p` is a regular file, so `p/c` is missing in
`src`. `Equal` reports only the type/mode mismatch at `p`: the missing
path yields no report — in particular no directory-content mismatch at its
parent — because the type mismatch at `p` skips the directory-content
comparison, and the walk of `p/c` swallows the not-exist error silently. -/
theorem spec_c6_counterexample :
    Equal
      ⟨[([['p']], EntryNode.dir 7), ([['p'], ['c']], EntryNode.file 7 [])]⟩
      ⟨[([['p']], EntryNode.file 7 [])]⟩ []
      = .ok [⟨.modeMismatch, [['p']], .vMode .dir 7, .vMode .regular 7⟩] ∧
    (⟨.modeMismatch, [['p']], .vMode .dir 7, .vMode .regular 7⟩ : EqualReport).reason
      ≠ EqualReason.dirContentMismatch := by
  constructor
  · decide
  · decide

/-- C6 (amended): `Equal` walks the destination and accumulates every
path's mismatch reports into the returned result, never short-circuiting on
a difference; a path present in the destination but missing in the source
contributes no report of its own (the not-exist error from opening the
source path is swallowed), and it surfaces as a directory-content mismatch
at the parent exactly when the parent is a directory in both filesystems
(or is the root) — when the parent's types differ, the missing path is not
reported anywhere. -/
theorem spec_c6_equal_accumulates (dst src : FileSys) (opts : List CopyFsOption)
    (hnr : ∀ e ∈ dst.entries, nodeType e.2 ≠ NodeType.nonreg) :
    Equal dst src opts
      = .ok (((walkPaths dst).map (fun p =>
          if p = [] then rootReports dst src
          else equalAt dst src (newCopyFsOption opts) p)).flatten) ∧
    (∀ p, lookupEntries src.entries p = none →
      equalAt dst src (newCopyFsOption opts) p = []) ∧
    (∀ q n, (q ++ [n]) ∈ dst.entries.map Prod.fst →
      lookupEntries src.entries (q ++ [n]) = none →
      (q = [] ∨ ∃ dm sm, lookupEntries dst.entries q = some (.dir dm) ∧
        lookupEntries src.entries q = some (.dir sm)) →
      ∀ res, Equal dst src opts = .ok res →
        ∃ dn sn, (⟨.dirContentMismatch, q, .vNames dn, .vNames sn⟩ : EqualReport) ∈ res ∧
          n ∈ dn ∧ n ∉ sn) := by
  have hnr' : ∀ p m, lookupEntries dst.entries p = some m → nodeType m ≠ .nonreg :=
    fun p m h => hnr (p, m) (lookupEntries_mem h)
  have hflat := equalWalk_flatten dst src (newCopyFsOption opts) hnr' (walkPaths dst)
  refine ⟨hflat, fun p h => equalAt_src_missing dst src _ p h, ?_⟩
  intro q n hmem hmiss hq res hres
  rw [show Equal dst src opts
      = equalWalk dst src (newCopyFsOption opts) (walkPaths dst) from rfl, hflat] at hres
  injection hres with hres
  subst hres
  have hin : n ∈ childNames dst q := mem_childNames_of_entry hmem
  have hout : n ∉ childNames src q := not_mem_childNames hmiss
  have hne : childNames dst q ≠ childNames src q := by
    intro hc
    rw [hc] at hin
    exact hout hin
  by_cases hq0 : q = []
  · subst hq0
    refine ⟨childNames dst [], childNames src [], ?_, hin, hout⟩
    apply List.mem_flatten.mpr
    refine ⟨rootReports dst src, ?_, ?_⟩
    · apply List.mem_map.mpr
      exact ⟨[], List.mem_cons_self _ _, by rw [if_pos rfl]⟩
    · unfold rootReports
      rw [if_pos hne]
      exact List.mem_cons_self _ _
  · rcases hq with hq | ⟨dm, sm, hdq, hsq⟩
    · exact absurd hq hq0
    · refine ⟨childNames dst q, childNames src q, ?_, hin, hout⟩
      apply List.mem_flatten.mpr
      refine ⟨equalAt dst src (newCopyFsOption opts) q, ?_, ?_⟩
      · apply List.mem_map.mpr
        refine ⟨q, ?_, by rw [if_neg hq0]⟩
        unfold walkPaths
        apply List.mem_cons_of_mem
        rw [List.mem_insertionSort]
        apply List.mem_map.mpr
        exact ⟨(q, .dir dm), lookupEntries_mem hdq, rfl⟩
      · unfold equalAt
        rw [hdq, hsq]
        apply List.mem_append_right
        rw [if_neg (show ¬ nodeType (EntryNode.dir dm) ≠ nodeType (EntryNode.dir sm)
          from fun hc => hc rfl)]
        rw [if_pos hne]
        exact List.mem_cons_self _ _

/-- Witness for C6 (amended) on `dst` holding directory `d` with child file
`d/c` and `src` holding only the (childless) directory `d`: the result is
exactly the accumulated reports, the missing path `d/c` itself contributes
nothing, and the parent directory `d` carries a directory-content mismatch
whose destination names contain `c` while the source names do not. -/
theorem spec_c6_equal_accumulates_witness :
    Equal
      ⟨[([['d']], EntryNode.dir 7), ([['d'], ['c']], EntryNode.file 7 [])]⟩
      ⟨[([['d']], EntryNode.dir 7)]⟩ []
      = .ok (((walkPaths
          ⟨[([['d']], EntryNode.dir 7), ([['d'], ['c']], EntryNode.file 7 [])]⟩).map
            (fun p =>
              if p = [] then rootReports
                ⟨[([['d']], EntryNode.dir 7), ([['d'], ['c']], EntryNode.file 7 [])]⟩
                ⟨[([['d']], EntryNode.dir 7)]⟩
              else equalAt
                ⟨[([['d']], EntryNode.dir 7), ([['d'], ['c']], EntryNode.file 7 [])]⟩
                ⟨[([['d']], EntryNode.dir 7)]⟩ (newCopyFsOption []) p)).flatten) ∧
    equalAt
      ⟨[([['d']], EntryNode.dir 7), ([['d'], ['c']], EntryNode.file 7 [])]⟩
      ⟨[([['d']], EntryNode.dir 7)]⟩ (newCopyFsOption []) [['d'], ['c']] = [] ∧
    ∃ dn sn, (⟨.dirContentMismatch, [['d']], .vNames dn, .vNames sn⟩ : EqualReport)
        ∈ [(⟨.dirContentMismatch, [['d']], .vNames [['c']], .vNames []⟩ : EqualReport)] ∧
      ['c'] ∈ dn ∧ ['c'] ∉ sn := by
  obtain ⟨h1, h2, h3⟩ := spec_c6_equal_accumulates
    ⟨[([['d']], EntryNode.dir 7), ([['d'], ['c']], EntryNode.file 7 [])]⟩
    ⟨[([['d']], EntryNode.dir 7)]⟩ [] (by decide)
  refine ⟨h1, h2 [['d'], ['c']] (by decide), ?_⟩
  exact h3 [['d']] ['c'] (by decide) (by decide)
    (Or.inr ⟨7, 7, by decide, by decide⟩)
    [(⟨.dirContentMismatch, [['d']], .vNames [['c']], .vNames []⟩ : EqualReport)]
    (by decide)

end fsutil

end MusicBox
